import Mathlib

/-!
Verification model of the `foundation` concurrency core: the forkable
`MultiQueue` (src/multiqueue.rs), the mpmc broadcast channel built on it
(src/sync/mpmc/{channel,sender,receiver,bounded,unbounded}.rs), and the
worker pool (src/threadpool.rs).

The raw-pointer singly linked list of the source is embedded as an arena:
the core's `chain` lists the live blocks in link order, keyed by their
stable heap addresses; a pointer is an `Option Nat` (with `none` for the
null pointer) and the source's pointer walks become suffix operations on
the chain list.  Every operation of the source takes the core's mutex
first; that lock acquisition is modelled by an explicit `lockOk : Bool`
argument selecting between the `Ok` branch and the `Err` (poisoned-lock)
branch of the source's `match self.core.lock()`.
-/

namespace Foundation

/-- A pointer to a queue block; `none` models the null pointer. -/
abbrev Ptr := Option Nat

/-- A node of the linked list backing the queue (struct `Block` of
src/multiqueue.rs).  The `next` link of the source is represented
positionally: the block after this one in the core's `chain` list. -/
structure Block (T : Type) where
  object : T
  reference_count : Nat
deriving DecidableEq

/-- Shared state of a queue (struct `Core` of src/multiqueue.rs).  `chain`
holds the live blocks in link order with their heap addresses; the
source's `head`/`tail` pointers are the first/last entries of `chain`.
`fresh` models the heap allocator: the address handed to the next block. -/
structure Core (T : Type) where
  chain : List (Nat × Block T)
  reference_count : Nat
  count_at_end_of_queue : Nat
  fresh : Nat
deriving DecidableEq

/-- A handle on the shared queue (struct `MultiQueue` of src/multiqueue.rs
minus the `Arc<Mutex<Core>>`, which is passed separately). -/
structure MultiQueue (T : Type) where
  head : Ptr
  at_end_of_queue : Bool
deriving DecidableEq

/-- Error type of the queue (enum `MultiQueueError`). -/
inductive MultiQueueError (T : Type) where
  | Push (t : T)
  | Fork
deriving DecidableEq

/-- The sub-chain hanging from the block at address `a`, that block first;
empty for the null pointer (and for a dangling address, which the source
never dereferences in a reachable state). -/
def suffixFrom (chain : List (Nat × Block T)) : Ptr → List (Nat × Block T)
  | none => []
  | some a => chain.dropWhile (fun b => b.1 != a)

/-- Dereference of the `next` field of the block at `p`. -/
def ptrNext (chain : List (Nat × Block T)) (p : Ptr) : Ptr :=
  (suffixFrom chain p).tail.head?.map (fun b => b.1)

/-- Dereference of the block at `p`. -/
def getBlock (chain : List (Nat × Block T)) (p : Ptr) : Option (Block T) :=
  (suffixFrom chain p).head?.map (fun b => b.2)

/-- `(*a).reference_count -= 1` on the chain. -/
def decRC (chain : List (Nat × Block T)) (a : Nat) : List (Nat × Block T) :=
  chain.map (fun b =>
    if b.1 = a then (b.1, { b.2 with reference_count := b.2.reference_count - 1 }) else b)

/-- The pointer walk of `MultiQueue::fork`: starting at `p`, follow `next`
links to the tail, incrementing each block's reference count. -/
def incRCFrom (chain : List (Nat × Block T)) : Ptr → List (Nat × Block T)
  | none => chain
  | some a =>
    chain.takeWhile (fun b => b.1 != a) ++
      (chain.dropWhile (fun b => b.1 != a)).map
        (fun b => (b.1, { b.2 with reference_count := b.2.reference_count + 1 }))

/-- `MultiQueue::count_size_from`: length of the chain from `p` (inclusive)
to the tail. -/
def countFrom (chain : List (Nat × Block T)) (p : Ptr) : Nat :=
  (suffixFrom chain p).length

/-- The source's `core.head` pointer: address of the first chain block. -/
def Core.headPtr (c : Core T) : Ptr :=
  c.chain.head?.map (fun b => b.1)

/-- `Core::new`. -/
def Core.new : Core T :=
  { chain := [], reference_count := 1, count_at_end_of_queue := 0, fresh := 0 }

/-- `Core::push_back`: allocate a block holding `object` and link it after
the tail; the new block's reference count is set to the core's current
reference count. -/
def Core.push_back (c : Core T) (object : T) : Core T :=
  { c with
    chain := c.chain ++ [(c.fresh, { object := object, reference_count := c.reference_count })]
    fresh := c.fresh + 1 }

/-- `Core::update`: unlink and free every block whose reference count is 0.
The source's tail-pointer fixup is implicit here because the model's tail
is always the last chain entry. -/
def Core.update (c : Core T) : Core T :=
  { c with chain := c.chain.filter (fun b => b.2.reference_count != 0) }

/-- `Core::size`: number of blocks in the chain. -/
def Core.size (c : Core T) : Nat :=
  c.chain.length

/-- `Core::shared_size`. -/
def Core.shared_size (c : Core T) : Nat :=
  let size := c.size
  if c.count_at_end_of_queue = c.reference_count ∧ size = 1 then 0 else size

/-- `Core::empty`: the head pointer is null. -/
def Core.empty (c : Core T) : Bool :=
  c.chain.isEmpty

/-- `MultiQueue::new`. -/
def MultiQueue.new : MultiQueue T :=
  { head := none, at_end_of_queue := false }

/-- `MultiQueue::push_back`. -/
def MultiQueue.push_back (lockOk : Bool) (q : MultiQueue T) (c : Core T) (object : T) :
    Except (MultiQueueError T) Unit × MultiQueue T × Core T :=
  if lockOk then
    let c1 := c.push_back object
    let q1 := if q.head.isNone then { q with head := c1.headPtr } else q
    (.ok (), q1, c1)
  else (.error (.Push object), q, c)

/-- `MultiQueue::empty`. -/
def MultiQueue.empty (lockOk : Bool) (q : MultiQueue T) (c : Core T) : Bool :=
  if lockOk then
    if q.head.isNone then c.empty
    else if q.at_end_of_queue then (ptrNext c.chain q.head).isNone
    else false
  else true

/-- `MultiQueue::front`.  The returned value models the `&T` the source
hands out.  When the handle was parked at the end of the queue and a newer
block exists, the call releases the parked block (decrementing its
reference count and running `Core::update`) and advances onto the newer
block before reading it, exactly as the source does. -/
def MultiQueue.front (lockOk : Bool) (q : MultiQueue T) (c : Core T) :
    Option T × MultiQueue T × Core T :=
  if lockOk then
    if c.empty then (none, q, c)
    else
      let q1 := if q.head.isNone then { q with head := c.headPtr } else q
      if q1.at_end_of_queue then
        match ptrNext c.chain q1.head with
        | none => (none, q1, c)
        | some nxt =>
          let c1 : Core T :=
            match q1.head with
            | some a => { c with chain := decRC c.chain a }
            | none => c
          let c2 := c1.update
          let q2 : MultiQueue T := { head := some nxt, at_end_of_queue := false }
          let c3 := { c2 with count_at_end_of_queue := c2.count_at_end_of_queue - 1 }
          ((getBlock c3.chain q2.head).map (fun b => b.object), q2, c3)
      else
        ((getBlock c.chain q1.head).map (fun b => b.object), q1, c)
  else (none, q, c)

/-- `MultiQueue::pop_front`. -/
def MultiQueue.pop_front (lockOk : Bool) (q : MultiQueue T) (c : Core T) :
    MultiQueue T × Core T :=
  if lockOk then
    if c.empty then (q, c)
    else
      let q1 := if q.head.isNone then { q with head := c.headPtr } else q
      if q1.at_end_of_queue then
        match ptrNext c.chain q1.head with
        | none => (q1, c)
        | some nxt =>
          let c1 : Core T :=
            match q1.head with
            | some a => { c with chain := decRC c.chain a }
            | none => c
          let q2 := { q1 with head := some nxt }
          match ptrNext c1.chain q2.head with
          | some nxt2 =>
            let c2 := { c1 with chain := decRC c1.chain nxt }
            let q3 : MultiQueue T := { head := some nxt2, at_end_of_queue := false }
            let c3 := { c2 with count_at_end_of_queue := c2.count_at_end_of_queue - 1 }
            (q3, c3.update)
          | none => (q2, c1.update)
      else
        match ptrNext c.chain q1.head with
        | none =>
          let q2 := { q1 with at_end_of_queue := true }
          let c1 := { c with count_at_end_of_queue := c.count_at_end_of_queue + 1 }
          (q2, c1.update)
        | some nxt =>
          let c1 : Core T :=
            match q1.head with
            | some a => { c with chain := decRC c.chain a }
            | none => c
          ({ q1 with head := some nxt }, c1.update)
  else (q, c)

/-- `MultiQueue::size`. -/
def MultiQueue.size (lockOk : Bool) (q : MultiQueue T) (c : Core T) : Nat :=
  if lockOk then
    if c.empty then 0
    else if q.at_end_of_queue then
      if q.head.isNone then c.size
      else countFrom c.chain (ptrNext c.chain q.head)
    else
      countFrom c.chain (if q.head.isNone then c.headPtr else q.head)
  else 0

/-- Fuel-indexed body of `MultiQueue::pop_all`; the source loops while
`self.size() > 0`, and under the queue invariant each `pop_front` lowers
`size` by one, so `size()` iterations reproduce the loop. -/
def MultiQueue.popLoop (lockOk : Bool) : Nat → MultiQueue T × Core T → MultiQueue T × Core T
  | 0, s => s
  | n + 1, (q, c) =>
    if 0 < MultiQueue.size lockOk q c then
      MultiQueue.popLoop lockOk n (MultiQueue.pop_front lockOk q c)
    else (q, c)

/-- `MultiQueue::pop_all`. -/
def MultiQueue.pop_all (lockOk : Bool) (q : MultiQueue T) (c : Core T) :
    MultiQueue T × Core T :=
  MultiQueue.popLoop lockOk (MultiQueue.size lockOk q c) (q, c)

/-- `MultiQueue::fork`: bump the core's reference count, walk the chain
from this handle's `head` pointer incrementing block reference counts,
account for an at-end parent, and hand back a handle at the parent's
current position. -/
def MultiQueue.fork (lockOk : Bool) (q : MultiQueue T) (c : Core T) :
    Except (MultiQueueError T) (MultiQueue T) × Core T :=
  if lockOk then
    let c1 := { c with
      reference_count := c.reference_count + 1
      chain := incRCFrom c.chain q.head }
    let c2 := if q.at_end_of_queue then
        { c1 with count_at_end_of_queue := c1.count_at_end_of_queue + 1 }
      else c1
    (.ok { head := q.head, at_end_of_queue := q.at_end_of_queue }, c2)
  else (.error .Fork, c)

/-- `MultiQueue::shared_size`.  Only the core is read (the handle itself
contributes nothing but the lock), so the handle argument is omitted. -/
def MultiQueue.shared_size (lockOk : Bool) (c : Core T) : Nat :=
  if lockOk then
    if c.count_at_end_of_queue = c.reference_count then
      countFrom c.chain (ptrNext c.chain c.headPtr)
    else c.shared_size
  else 0

/-- `MultiQueue::references`. -/
def MultiQueue.references (lockOk : Bool) (c : Core T) : Nat :=
  if lockOk then c.reference_count else 0

/-- `MultiQueueIterator`: a copy of the handle's raw head pointer. -/
structure MultiQueueIterator (T : Type) where
  head : Ptr
deriving DecidableEq

/-- `MultiQueueIterator::new`. -/
def MultiQueueIterator.new (q : MultiQueue T) : MultiQueueIterator T :=
  { head := q.head }

/-- `Iterator::next` for `MultiQueueIterator`. -/
def MultiQueueIterator.next (c : Core T) (it : MultiQueueIterator T) :
    Option T × MultiQueueIterator T :=
  match it.head with
  | none => (none, it)
  | some a =>
    ((getBlock c.chain (some a)).map (fun b => b.object), { head := ptrNext c.chain (some a) })

/-- Collect up to `fuel` elements from the iterator, stopping at the first
`none`, i.e. the values a `for` loop over the iterator observes. -/
def iterCollect (c : Core T) : Nat → MultiQueueIterator T → List T
  | 0, _ => []
  | n + 1, it =>
    match MultiQueueIterator.next c it with
    | (none, _) => []
    | (some v, it1) => v :: iterCollect c n it1

/-! ## The mpmc broadcast channel (src/sync/mpmc) -/

/-- `SendError` of src/sync/error.rs: carries the unsent value back. -/
structure SendError (T : Type) where
  value : T
deriving DecidableEq

/-- Selector between the sender and receiver waker tables. -/
inductive WhichWaker where
  | Sender
  | Receiver
deriving DecidableEq

/-- The result of polling a suspension point: `Ready` resolves the await,
`Pending` parks the task until a waker fires. -/
inductive Poll (α : Type) where
  | Ready (a : α)
  | Pending
deriving DecidableEq

/-- The shared channel object (struct `Channel` of src/sync/mpmc/channel.rs).
The waker tables keep only the registered ids (the `Waker` payloads carry
no state the model observes); sender/receiver ids are `Nat`, standing in
for the `Uuid` strings of the source. -/
structure Channel (T : Type) where
  senders : List Nat
  receivers : List Nat
  queue : MultiQueue T
  live_senders : Nat
deriving DecidableEq

/-- `Channel::new`. -/
def Channel.new : Channel T :=
  { senders := [], receivers := [], queue := MultiQueue.new, live_senders := 0 }

/-- Insert into a waker table, replacing an existing entry for the id
(`HashMap::insert`). -/
def wakerInsert (id : Nat) (tbl : List Nat) : List Nat :=
  if id ∈ tbl then tbl else tbl ++ [id]

/-- `Channel::set_waker`. -/
def Channel.set_waker (ch : Channel T) (id : Nat) (which : WhichWaker) : Channel T :=
  match which with
  | .Sender => { ch with senders := wakerInsert id ch.senders }
  | .Receiver => { ch with receivers := wakerInsert id ch.receivers }

/-- `Channel::remove_waker`. -/
def Channel.remove_waker (ch : Channel T) (id : Nat) (which : WhichWaker) : Channel T :=
  match which with
  | .Sender => { ch with senders := ch.senders.filter (fun x => x != id) }
  | .Receiver => { ch with receivers := ch.receivers.filter (fun x => x != id) }

/-- `Channel::wake` calls `wake_by_ref` on every waker of the chosen table;
that signals the executor but leaves the channel state unchanged. -/
def Channel.wake (ch : Channel T) (_which : WhichWaker) : Channel T :=
  ch

/-- `Channel::increment_senders`. -/
def Channel.increment_senders (ch : Channel T) : Channel T :=
  { ch with live_senders := ch.live_senders + 1 }

/-- `Channel::decrement_senders`. -/
def Channel.decrement_senders (ch : Channel T) : Channel T :=
  { ch with live_senders := ch.live_senders - 1 }

/-- `Channel::live_senders`. -/
def Channel.liveSenderCount (ch : Channel T) : Nat :=
  ch.live_senders

/-- `Channel::send`: append to the queue through the channel's own handle,
then drain the channel's own read side (`pop_all`) so that only receivers
hold reclamation claims.  `qlockOk` is the inner queue mutex. -/
def Channel.send (qlockOk : Bool) (ch : Channel T) (core : Core T) (thing : T) :
    Except (SendError T) Unit × Channel T × Core T :=
  match MultiQueue.push_back qlockOk ch.queue core thing with
  | (.ok _, q, c) =>
    let s := MultiQueue.pop_all qlockOk q c
    (.ok (), { ch with queue := s.1 }, s.2)
  | (.error (.Push t), q, c) => (.error { value := t }, { ch with queue := q }, c)
  | (.error .Fork, q, c) => (.error { value := thing }, { ch with queue := q }, c)

/-- A sender handle (struct `Sender` of src/sync/mpmc/sender.rs). -/
structure Sender (T : Type) where
  bound : Option Nat
  id : Nat
deriving DecidableEq

/-- One poll of `Sender::get_send_space`: in the bounded case the await
resolves only while `shared_size() < bound`, otherwise the sender's waker
is registered and the task suspends; the unbounded case is always ready.
`lockOk` is the channel mutex. -/
def Sender.get_send_space_poll (lockOk : Bool) (s : Sender T) (ch : Channel T) (core : Core T) :
    Poll (Except (SendError Unit) Unit) × Channel T :=
  if lockOk then
    match s.bound with
    | some bound =>
      if MultiQueue.shared_size true core < bound then (.Ready (.ok ()), ch)
      else (.Pending, ch.set_waker s.id .Sender)
    | none => (.Ready (.ok ()), ch)
  else (.Ready (.error { value := () }), ch)

/-- `Sender::send` after `get_send_space` has resolved `Ok`: push through
`Channel::send`, drop this sender's registered waker, wake the receivers.
The suspension before this point is `Sender.get_send_space_poll`. -/
def Sender.send (lockOk qlockOk : Bool) (s : Sender T) (thing : T)
    (ch : Channel T) (core : Core T) :
    Except (SendError T) Unit × Channel T × Core T :=
  if lockOk then
    match Channel.send qlockOk ch core thing with
    | (.ok _, ch1, core1) =>
      let ch2 := { ch1 with senders := ch1.senders.filter (fun x => x != s.id) }
      let ch3 := ch2.wake .Receiver
      (.ok (), ch3, core1)
    | (.error e, ch1, core1) => (.error e, ch1, core1)
  else (.error { value := thing }, ch, core)

/-- A receiver handle (struct `Receiver` of src/sync/mpmc/receiver.rs):
an id plus a private fork of the channel's backlog queue. -/
structure Receiver (T : Type) where
  id : Nat
  queue : MultiQueue T
deriving DecidableEq

/-- `Receiver::new` (also the body of `Sender::subscribe`): fork the
channel's backlog at its current position.  The source panics if the fork
fails; the model returns `none` in that (lock-poisoned) case. -/
def Receiver.mk? (lockOk : Bool) (newId : Nat) (ch : Channel T) (core : Core T) :
    Option (Receiver T) × Core T :=
  match MultiQueue.fork lockOk ch.queue core with
  | (.ok q, c) => (some { id := newId, queue := q }, c)
  | (.error _, c) => (none, c)

/-- `Sender::subscribe`. -/
def Sender.subscribe (lockOk : Bool) (newId : Nat) (ch : Channel T) (core : Core T) :
    Option (Receiver T) × Core T :=
  Receiver.mk? lockOk newId ch core

/-- `Sender::clone`: a fresh id sharing channel and bound; bumps the
live-sender count. -/
def Sender.cloneSender (s : Sender T) (newId : Nat) (ch : Channel T) :
    Sender T × Channel T :=
  ({ bound := s.bound, id := newId }, ch.increment_senders)

/-- `Drop for Sender`: decrement the live-sender count. -/
def Sender.release (lockOk : Bool) (ch : Channel T) : Channel T :=
  if lockOk then ch.decrement_senders else ch

/-- One poll of `Receiver::recv` (the `get_something_to_receive` future
followed by the body of `recv`): ready with a value while the private fork
is non-empty, ready with `none` once the fork is drained and the
live-sender count is zero, pending otherwise. -/
def Receiver.recv_poll (lockOk : Bool) (r : Receiver T) (ch : Channel T) (core : Core T) :
    Poll (Option T) × Receiver T × Channel T × Core T :=
  if lockOk then
    if 0 < MultiQueue.size true r.queue core then
      let ch1 := ch.remove_waker r.id .Receiver
      let ch2 := ch1.remove_waker r.id .Receiver
      match MultiQueue.front true r.queue core with
      | (some thing, q, core1) =>
        let s := MultiQueue.pop_front true q core1
        let ch3 := ch2.wake .Sender
        (.Ready (some thing), { r with queue := s.1 }, ch3, s.2)
      | (none, q, core1) =>
        (.Ready none, { r with queue := q }, ch2, core1)
    else
      if ch.live_senders = 0 then (.Ready none, r, ch, core)
      else (.Pending, r, (ch.set_waker r.id .Receiver).wake .Sender, core)
  else (.Ready none, r, ch, core)

/-- `bounded::channel` / `unbounded::unbounded_channel`: a fresh shared
channel, one sender (live-sender count 1) and one receiver forked off the
empty backlog.  `bound = none` gives the unbounded channel. -/
def mkChannel (bound : Option Nat) (sid rid : Nat) :
    Sender T × Receiver T × Channel T × Core T :=
  let ch : Channel T := Channel.new
  let core : Core T := Core.new
  let ch1 := ch.increment_senders
  let s : Sender T := { bound := bound, id := sid }
  match Receiver.mk? true rid ch1 core with
  | (some r, core1) => (s, r, ch1, core1)
  | (none, core1) => (s, { id := rid, queue := MultiQueue.new }, ch1, core1)

/-! ## The worker pool (src/threadpool.rs) -/

instance {ε α : Type} [DecidableEq ε] [DecidableEq α] : DecidableEq (Except ε α) := fun x y =>
  match x, y with
  | .ok a, .ok b =>
    if h : a = b then .isTrue (by rw [h]) else .isFalse (by intro hh; injection hh; exact h (by assumption))
  | .error a, .error b =>
    if h : a = b then .isTrue (by rw [h]) else .isFalse (by intro hh; injection hh; exact h (by assumption))
  | .ok _, .error _ => .isFalse (fun hh => Except.noConfusion hh)
  | .error _, .ok _ => .isFalse (fun hh => Except.noConfusion hh)

/-- A task: the opaque unit of work of the pool, identified by `id` and
resolving to the source's `DynResult<()>` outcome when awaited. -/
structure Task where
  id : Nat
  outcome : Except Unit Unit
deriving DecidableEq

/-- `ThreadJob`: an ordered list of tasks run as one unit. -/
structure ThreadJob where
  job_list : List Task
deriving DecidableEq

/-- `ThreadJob::new`. -/
def ThreadJob.new : ThreadJob :=
  { job_list := [] }

/-- `ThreadJob::add_task`: push the task at the end of the job list. -/
def ThreadJob.add_task (j : ThreadJob) (t : Task) : ThreadJob :=
  { job_list := j.job_list ++ [t] }

/-- The `for task in job.job_list { task.await?; }` loop of the worker:
awaits the tasks in list order and stops at the first error, which the
`?` operator propagates.  Returns the ids of the tasks that actually ran
(in execution order) and the propagated result. -/
def runTasks : List Task → List Nat × Except Unit Unit
  | [] => ([], .ok ())
  | t :: rest =>
    match t.outcome with
    | .ok () =>
      let s := runTasks rest
      (t.id :: s.1, s.2)
    | .error e => ([t.id], .error e)

/-- The worker loop of `Worker::new`, run against the jobs queued in the
worker's private inbox at session start.  For each job it runs the tasks;
a task error makes the spawned future return `Err` and the loop dies (the
`true` flag).  After a successful job it drains the next queued job
without reporting idle; only when `try_recv` finds the inbox empty does it
send one idle notification and go back to blocking on `recv`.  Returns the
executed task ids in order, the number of idle notifications sent, and
whether the worker died on a task error. -/
def workerLoop : List ThreadJob → List Nat × Nat × Bool
  | [] => ([], 0, false)
  | j :: rest =>
    let s := runTasks j.job_list
    match s.2 with
    | .error _ => (s.1, 0, true)
    | .ok () =>
      match rest with
      | [] => (s.1, 1, false)
      | _ :: _ =>
        let w := workerLoop rest
        (s.1 ++ w.1, w.2.1, w.2.2)

/-! ## Abstraction layer: reachable queue states

A reachable state of one queue instance is described by the list `vs` of
all values ever pushed (block addresses are their push indices) together
with one abstract descriptor per live handle. -/

/-- Abstract state of one handle.  `U`: a handle that has never attached to
the chain (null `head`, not at end).  `B k`: `head` is block `k` and the
handle has consumed the first `k` values.  `C k`: the handle is flagged
`at_end_of_queue`, parked on the already-consumed block `k - 1`, having
consumed the first `k` values. -/
inductive HAbs where
  | U
  | B (k : Nat)
  | C (k : Nat)
deriving DecidableEq

/-- The least block index this handle still holds a reclamation claim on
(the handle has decremented the reference counts of exactly the blocks
below `decPos`). -/
def HAbs.decPos : HAbs → Nat
  | .U => 0
  | .B k => k
  | .C k => k - 1

/-- How many values this handle has consumed. -/
def HAbs.consumed : HAbs → Nat
  | .U => 0
  | .B k => k
  | .C k => k

/-- Whether the handle is flagged at end of queue. -/
def HAbs.isEnd : HAbs → Bool
  | .C _ => true
  | _ => false

/-- The concrete handle a descriptor stands for. -/
def HAbs.concr : HAbs → MultiQueue T
  | .U => { head := none, at_end_of_queue := false }
  | .B k => { head := some k, at_end_of_queue := false }
  | .C k => { head := some (k - 1), at_end_of_queue := true }

/-- Well-formedness of a descriptor against `M` pushed values. -/
def HAbs.valid (M : Nat) : HAbs → Prop
  | .U => True
  | .B k => k < M
  | .C k => 1 ≤ k ∧ k ≤ M

/-- Reference count of block `i`: the number of handles that have not yet
released their claim on it. -/
def rcOf (hs : List HAbs) (i : Nat) : Nat :=
  hs.countP (fun h => h.decPos ≤ i)

/-- Number of handles flagged at end of queue. -/
def countEnd (hs : List HAbs) : Nat :=
  hs.countP (fun h => h.isEnd)

/-- Blocks for the values `l`, numbered consecutively from `i`, block `x`
carrying reference count `g x`. -/
def segOf (g : Nat → Nat) : Nat → List T → List (Nat × Block T)
  | _, [] => []
  | i, v :: rest => (i, { object := v, reference_count := g i }) :: segOf g (i + 1) rest

/-- The chain segment of blocks `m, m+1, …` up to the end of `vs`, block
`i` carrying value `vs[i]` and reference count `g i`. -/
def chainSeg (vs : List T) (g : Nat → Nat) (m : Nat) : List (Nat × Block T) :=
  segOf g m (vs.drop m)

/-- Pointwise update of a reference-count assignment: block `a` loses one
claim. -/
def updDec (g : Nat → Nat) (a : Nat) : Nat → Nat :=
  fun x => if x = a then g x - 1 else g x

/-- Pointwise update of a reference-count assignment: every block from `a`
on gains one claim. -/
def updInc (g : Nat → Nat) (a : Nat) : Nat → Nat :=
  fun x => if a ≤ x then g x + 1 else g x

/-- The invariant tying a concrete core to the abstract description: `vs`
are all values ever pushed, `hs` the descriptors of the live handles, and
`m` the least block index any handle still claims. -/
structure CoreInv (vs : List T) (hs : List HAbs) (m : Nat) (c : Core T) : Prop where
  chain_eq : c.chain = chainSeg vs (rcOf hs) m
  rc_eq : c.reference_count = hs.length
  cae_eq : c.count_at_end_of_queue = countEnd hs
  fresh_eq : c.fresh = vs.length
  hs_ne : hs ≠ []
  valid : ∀ h ∈ hs, h.valid vs.length
  m_le : m ≤ vs.length
  dead_below : ∀ i, i < m → rcOf hs i = 0
  alive_from : ∀ i, m ≤ i → i < vs.length → rcOf hs i ≠ 0

/-- Abstract effect of `front` on a handle. -/
def frontAbs (M : Nat) (h : HAbs) : HAbs :=
  if h.consumed < M then .B h.consumed else h

/-- Abstract effect of `pop_front` on a handle. -/
def popAbs (M : Nat) (h : HAbs) : HAbs :=
  if h.consumed < M then
    if h.consumed + 1 = M then .C M else .B (h.consumed + 1)
  else h

/-- Abstract effect of `push_back` on the pushing handle. -/
def pushAbs (h : HAbs) : HAbs :=
  match h with
  | .U => .B 0
  | x => x

/-- Abstract effect of one `front` + `pop_front` round. -/
def stepAbs (M : Nat) (h : HAbs) : HAbs :=
  popAbs M (frontAbs M h)

/-- Abstract effect of `pop_all` on a handle: drained to the end. -/
def drainAbs (M : Nat) (h : HAbs) : HAbs :=
  if M = 0 then h else .C M

/-- A system: the shared core plus every live handle of the instance. -/
structure Sys (T : Type) where
  core : Core T
  handles : List (MultiQueue T)
deriving DecidableEq

/-- One drain round by handle `j`: observe `front()`, then `pop_front()`. -/
def Sys.frontPop (s : Sys T) (j : Nat) : Option T × Sys T :=
  match s.handles[j]? with
  | none => (none, s)
  | some q =>
    let f := MultiQueue.front true q s.core
    let p := MultiQueue.pop_front true f.2.1 f.2.2
    (f.1, { core := p.2, handles := s.handles.set j p.1 })

/-- Run a drain trace: each entry names the handle doing one
`front()`/`pop_front()` round; the observations are recorded in order. -/
def runFrontPops (s : Sys T) : List Nat → Sys T × List (Nat × Option T)
  | [] => (s, [])
  | j :: tr =>
    let st := s.frontPop j
    let rest := runFrontPops st.2 tr
    (rest.1, (j, st.1) :: rest.2)

/-- The observations a given handle made, in order. -/
def obsOf (j : Nat) (l : List (Nat × Option T)) : List (Option T) :=
  (l.filter (fun p => p.1 = j)).map (fun p => p.2)

/-- Push every value of `vs` through handle `j` of the system. -/
def pushAll (s : Sys T) (j : Nat) : List T → Sys T
  | [] => s
  | v :: vs =>
    match s.handles[j]? with
    | none => pushAll s j vs
    | some q =>
      let r := MultiQueue.push_back true q s.core v
      pushAll { core := r.2.2, handles := s.handles.set j r.2.1 } j vs

/-- A fresh queue with its single original handle. -/
def mkSys : Sys T :=
  { core := Core.new, handles := [MultiQueue.new] }

/-- Fork handle 0 of the system `n` times, appending each new handle
(the construction used by the multi-fork claims: all forks are taken
before any push). -/
def forkN (s : Sys T) : Nat → Sys T
  | 0 => s
  | n + 1 =>
    match s.handles[0]? with
    | none => s
    | some q =>
      match MultiQueue.fork true q s.core with
      | (.ok q1, c) => forkN { core := c, handles := s.handles ++ [q1] } n
      | (.error _, c) => forkN { core := c, handles := s.handles } n

/-! ## Channel systems -/

/-- A channel system: the shared channel record, the shared queue core,
and the live receivers. -/
structure CSys (T : Type) where
  ch : Channel T
  core : Core T
  recvs : List (Receiver T)
deriving DecidableEq

/-- Construction events for a channel history: a send through the one
sender, or a subscription creating a new receiver. -/
inductive ChEvent (T : Type) where
  | send (v : T)
  | sub (id : Nat)
deriving DecidableEq

/-- Apply one construction event (sends resolve immediately: the builder
is used for unbounded histories, where `get_send_space` is always ready). -/
def applyEvent (sdr : Sender T) (s : CSys T) : ChEvent T → CSys T
  | .send v =>
    let r := Sender.send true true sdr v s.ch s.core
    { s with ch := r.2.1, core := r.2.2 }
  | .sub id =>
    match Sender.subscribe true id s.ch s.core with
    | (some r, core1) => { s with core := core1, recvs := s.recvs ++ [r] }
    | (none, core1) => { s with core := core1 }

/-- Build a channel history from events. -/
def buildC (sdr : Sender T) : CSys T → List (ChEvent T) → CSys T
  | s, [] => s
  | s, e :: es => buildC sdr (applyEvent sdr s e) es

/-- The values sent during a history, in order. -/
def sentOf : List (ChEvent T) → List T
  | [] => []
  | .send v :: es => v :: sentOf es
  | .sub _ :: es => sentOf es

/-- Abstract descriptors of the receivers a history creates, given `k`
values already sent: a receiver subscribed after `k` sends starts at
`C k` (parked at the channel handle's drained position), or `U` when
nothing has been sent yet. -/
def rsAbs (k : Nat) : List (ChEvent T) → List HAbs
  | [] => []
  | .send _ :: es => rsAbs (k + 1) es
  | .sub _ :: es => (if k = 0 then HAbs.U else HAbs.C k) :: rsAbs k es

/-- Abstract descriptor of the channel's own handle: drained to the end of
everything sent. -/
def chanAbs (M : Nat) : HAbs :=
  if M = 0 then HAbs.U else HAbs.C M

/-- The unbounded channel start state used by the history builder:
`unbounded_channel()` with sender id `sid` and first receiver id `rid`. -/
def startC (sid rid : Nat) : Sender T × CSys T :=
  match mkChannel none sid rid with
  | (s, r, ch, core) => (s, { ch := ch, core := core, recvs := [r] })

/-- Invariant of a whole queue system: the core satisfies `CoreInv` and
the handle list realises the descriptors. -/
structure SysInv (vs : List T) (hs : List HAbs) (m : Nat) (s : Sys T) : Prop where
  core_inv : CoreInv vs hs m s.core
  handles_eq : s.handles = hs.map HAbs.concr

/-- Invariant of a channel system built over one live sender: the queue
core satisfies `CoreInv` for the channel's own (always drained) handle
followed by the receivers' fork handles; `L` is the live-sender count. -/
structure ChanInv (vs : List T) (rs : List HAbs) (m : Nat) (L : Nat) (s : CSys T) : Prop where
  core_inv : CoreInv vs (chanAbs vs.length :: rs) m s.core
  chanq_eq : s.ch.queue = (chanAbs vs.length).concr
  recvs_eq : s.recvs.map (fun r => r.queue) = rs.map HAbs.concr
  live_eq : s.ch.live_senders = L

/-- The observations a drain of `n` rounds starting after `b` consumed
values must produce: the next pending values, then `none` once past the
end. -/
def expectedObs (vs : List T) (b n : Nat) : List (Option T) :=
  ((vs.drop b).take n).map some ++ List.replicate (b + n - max b vs.length) none

/-- Run a trace of `recv` polls: each entry names a receiver; the poll
result is recorded (`some x` when the poll resolved `Ready x`, `none`
when it returned `Pending`). -/
def runRecvs (s : CSys T) : List Nat → CSys T × List (Nat × Option (Option T))
  | [] => (s, [])
  | j :: tr =>
    match s.recvs[j]? with
    | none =>
      let rest := runRecvs s tr
      (rest.1, (j, none) :: rest.2)
    | some r =>
      let p := Receiver.recv_poll true r s.ch s.core
      let s1 : CSys T := { ch := p.2.2.1, core := p.2.2.2, recvs := s.recvs.set j p.2.1 }
      let rec1 : Option (Option T) :=
        match p.1 with
        | .Ready x => some x
        | .Pending => none
      let rest := runRecvs s1 tr
      (rest.1, (j, rec1) :: rest.2)

/-- `Drop for Sender` applied to a whole channel system: the (last) sender
is released, closing the channel once the live count reaches zero. -/
def closeC (s : CSys T) : CSys T :=
  { s with ch := Sender.release true s.ch }

/-- The channel history of the late-subscriber claim: `vs1` sent, then
`subscribe`, then `vs2` sent, all from the unbounded channel start state. -/
def subSys (sid rid newId : Nat) (vs1 vs2 : List T) : CSys T :=
  buildC (startC sid rid).1 (startC sid rid).2
    (vs1.map ChEvent.send ++ ChEvent.sub newId :: vs2.map ChEvent.send)

/-- A job built by `ThreadJob::new` followed by one `add_task` per task. -/
def jobOf (ts : List Task) : ThreadJob :=
  ts.foldl ThreadJob.add_task ThreadJob.new

/-- Bounded-channel scenario: `bounded_channel(1)` over `Nat`. -/
def boundedDemoInit : Sender Nat × Receiver Nat × Channel Nat × Core Nat :=
  mkChannel (some 1) 0 1

/-- One value sent through the bound-1 channel. -/
def boundedDemoSent : Except (SendError Nat) Unit × Channel Nat × Core Nat :=
  Sender.send true true boundedDemoInit.1 5 boundedDemoInit.2.2.1 boundedDemoInit.2.2.2

/-- The receiver then takes the value back out. -/
def boundedDemoRecvd : Poll (Option Nat) × Receiver Nat × Channel Nat × Core Nat :=
  Receiver.recv_poll true boundedDemoInit.2.1 boundedDemoSent.2.1 boundedDemoSent.2.2

/-- Fork scenario: two handles (one fork before any push), values 1 and 2
pushed through handle 0, then one `front`/`pop_front` round by handle 0. -/
def forkDemoPre : Sys Nat :=
  ((pushAll (forkN (mkSys : Sys Nat) 1) 0 [1, 2]).frontPop 0).2

/-- Handle 0 of the fork scenario after its pop. -/
def forkDemoQ : MultiQueue Nat :=
  forkDemoPre.handles.getD 0 MultiQueue.new

/-- Iterator scenario: one value pushed through the only handle, then one
`front`/`pop_front` round, leaving the handle parked at end of queue. -/
def iterDemoPre : Sys Nat :=
  ((pushAll (mkSys : Sys Nat) 0 [1]).frontPop 0).2

/-- The single handle of the iterator scenario after its pop. -/
def iterDemoQ : MultiQueue Nat :=
  iterDemoPre.handles.getD 0 MultiQueue.new

/-- A small reachable core used to instantiate the general theorems: the
values 7 and 8 were pushed, one of the two handles has consumed one value. -/
def demoCore : Core Nat :=
  { chain := [(0, { object := 7, reference_count := 1 }),
              (1, { object := 8, reference_count := 2 })]
    reference_count := 2
    count_at_end_of_queue := 0
    fresh := 2 }

/-! ## Lemmas about chain segments -/

theorem segOf_length (g : Nat → Nat) (l : List T) : ∀ i, (segOf g i l).length = l.length := by
  induction l with
  | nil => intro i; rfl
  | cons v rest ih => intro i; simp [segOf, ih]

theorem segOf_id_mem (g : Nat → Nat) (l : List T) :
    ∀ i, ∀ p ∈ segOf g i l, i ≤ p.1 ∧ p.1 < i + l.length := by
  induction l with
  | nil => intro i p hp; simp [segOf] at hp
  | cons v rest ih =>
    intro i p hp
    simp only [segOf, List.mem_cons] at hp
    rcases hp with rfl | hp
    · simp
    · have := ih (i + 1) p hp
      simp only [List.length_cons]
      omega

theorem segOf_congr (g g' : Nat → Nat) (l : List T) :
    ∀ i, (∀ x, i ≤ x → x < i + l.length → g x = g' x) → segOf g i l = segOf g' i l := by
  induction l with
  | nil => intro i _; rfl
  | cons v rest ih =>
    intro i hg
    have h0 : g i = g' i := hg i le_rfl (by simp)
    simp only [segOf, h0]
    rw [ih (i + 1) (fun x hx hx2 => hg x (by omega) (by simp; omega))]

theorem suffixFrom_segOf (g : Nat → Nat) (l : List T) :
    ∀ i a, i ≤ a → suffixFrom (segOf g i l) (some a) = segOf g a (l.drop (a - i)) := by
  induction l with
  | nil => intro i a _; simp [segOf, suffixFrom]
  | cons v rest ih =>
    intro i a hia
    rcases Nat.eq_or_lt_of_le hia with rfl | hlt
    · simp [segOf, suffixFrom]
    · have hne : (i != a) = true := by simp; omega
      simp only [segOf, suffixFrom, List.dropWhile_cons]
      simp only [hne, if_true]
      have h2 := ih (i + 1) a hlt
      simp only [suffixFrom] at h2
      rw [h2]
      have h3 : a - i = (a - (i + 1)) + 1 := by omega
      rw [h3, List.drop_succ_cons]

theorem suffixFrom_chainSeg (vs : List T) (g : Nat → Nat) (m a : Nat) (h : m ≤ a) :
    suffixFrom (chainSeg vs g m) (some a) = chainSeg vs g a := by
  unfold chainSeg
  rw [suffixFrom_segOf g _ m a h, List.drop_drop]
  have h2 : m + (a - m) = a := by omega
  rw [h2]

theorem chainSeg_nil (vs : List T) (g : Nat → Nat) (m : Nat) (h : vs.length ≤ m) :
    chainSeg vs g m = [] := by
  unfold chainSeg
  rw [List.drop_eq_nil_of_le h]
  rfl

theorem chainSeg_cons (vs : List T) (g : Nat → Nat) (m : Nat) (h : m < vs.length) :
    chainSeg vs g m =
      (m, { object := vs.get ⟨m, h⟩, reference_count := g m }) :: chainSeg vs g (m + 1) := by
  unfold chainSeg
  rw [List.drop_eq_getElem_cons h]
  simp [segOf, List.get_eq_getElem]

theorem chainSeg_length (vs : List T) (g : Nat → Nat) (m : Nat) :
    (chainSeg vs g m).length = vs.length - m := by
  unfold chainSeg
  rw [segOf_length, List.length_drop]

theorem chainSeg_eq_nil_iff (vs : List T) (g : Nat → Nat) (m : Nat) :
    chainSeg vs g m = [] ↔ vs.length ≤ m := by
  constructor
  · intro h
    by_contra hlt
    rw [chainSeg_cons vs g m (by omega)] at h
    exact List.noConfusion h
  · exact chainSeg_nil vs g m

theorem chainSeg_congr (vs : List T) (g g' : Nat → Nat) (m : Nat)
    (h : ∀ x, m ≤ x → x < vs.length → g x = g' x) : chainSeg vs g m = chainSeg vs g' m := by
  unfold chainSeg
  exact segOf_congr g g' _ m (fun x hx hx2 => h x hx (by simp at hx2; omega))

theorem getBlock_chainSeg (vs : List T) (g : Nat → Nat) (m a : Nat) (hma : m ≤ a)
    (ha : a < vs.length) :
    getBlock (chainSeg vs g m) (some a) =
      some { object := vs.get ⟨a, ha⟩, reference_count := g a } := by
  unfold getBlock
  rw [suffixFrom_chainSeg vs g m a hma, chainSeg_cons vs g a ha]
  rfl

theorem getBlock_chainSeg_none (vs : List T) (g : Nat → Nat) (m a : Nat) (hma : m ≤ a)
    (ha : vs.length ≤ a) : getBlock (chainSeg vs g m) (some a) = none := by
  unfold getBlock
  rw [suffixFrom_chainSeg vs g m a hma, chainSeg_nil vs g a ha]
  rfl

theorem ptrNext_chainSeg (vs : List T) (g : Nat → Nat) (m a : Nat) (hma : m ≤ a) :
    ptrNext (chainSeg vs g m) (some a) =
      if a + 1 < vs.length then some (a + 1) else none := by
  unfold ptrNext
  rw [suffixFrom_chainSeg vs g m a hma]
  by_cases ha : a < vs.length
  · rw [chainSeg_cons vs g a ha]
    by_cases ha1 : a + 1 < vs.length
    · rw [chainSeg_cons vs g (a + 1) ha1]
      simp [ha1]
    · rw [chainSeg_nil vs g (a + 1) (by omega)]
      simp [ha1]
  · rw [chainSeg_nil vs g a (by omega), if_neg (show ¬ a + 1 < vs.length by omega)]
    rfl

theorem headPtr_chain_chainSeg (c : Core T) (vs : List T) (g : Nat → Nat) (m : Nat)
    (h : c.chain = chainSeg vs g m) :
    c.headPtr = if m < vs.length then some m else none := by
  unfold Core.headPtr
  rw [h]
  by_cases hm : m < vs.length
  · rw [chainSeg_cons vs g m hm]
    simp [hm]
  · rw [chainSeg_nil vs g m (by omega)]
    simp [hm]

theorem isEmpty_chainSeg (vs : List T) (g : Nat → Nat) (m : Nat) :
    (chainSeg vs g m).isEmpty = decide (vs.length ≤ m) := by
  by_cases hm : m < vs.length
  · rw [chainSeg_cons vs g m hm]
    simp
    omega
  · rw [chainSeg_nil vs g m (by omega)]
    simp
    omega

theorem decRC_segOf (g : Nat → Nat) (a : Nat) (l : List T) :
    ∀ i, decRC (segOf g i l) a = segOf (updDec g a) i l := by
  induction l with
  | nil => intro i; rfl
  | cons v rest ih =>
    intro i
    simp only [segOf, decRC, List.map_cons]
    rw [← decRC, ih (i + 1)]
    by_cases hia : i = a
    · simp [hia, updDec]
    · simp [hia, updDec]

theorem decRC_chainSeg (vs : List T) (g : Nat → Nat) (m a : Nat) :
    decRC (chainSeg vs g m) a = chainSeg vs (updDec g a) m :=
  decRC_segOf g a _ m

theorem segOf_map_inc (g : Nat → Nat) (l : List T) :
    ∀ i, ((segOf g i l).map
        (fun b => (b.1, { b.2 with reference_count := b.2.reference_count + 1 }))) =
      segOf (fun x => g x + 1) i l := by
  induction l with
  | nil => intro i; rfl
  | cons v rest ih => intro i; simp only [segOf, List.map_cons, ih (i + 1)]

theorem incRCFrom_segOf (g : Nat → Nat) (a : Nat) (l : List T) :
    ∀ i, i ≤ a → incRCFrom (segOf g i l) (some a) = segOf (updInc g a) i l := by
  induction l with
  | nil => intro i _; rfl
  | cons v rest ih =>
    intro i hia
    rcases Nat.eq_or_lt_of_le hia with rfl | hlt
    · simp only [incRCFrom, segOf]
      rw [List.takeWhile_cons, List.dropWhile_cons]
      simp only [bne_self_eq_false, if_false, Bool.false_eq_true, List.nil_append, List.map_cons]
      rw [segOf_map_inc g rest (i + 1)]
      have hg : updInc g i i = g i + 1 := by simp [updInc]
      rw [hg]
      have hc : segOf (fun x => g x + 1) (i + 1) rest = segOf (updInc g i) (i + 1) rest := by
        apply segOf_congr
        intro x hx _
        have hix : i ≤ x := by omega
        simp [updInc, hix]
      rw [hc]
    · have hne : (i != a) = true := by simp; omega
      simp only [incRCFrom, segOf]
      rw [List.takeWhile_cons, List.dropWhile_cons]
      simp only [hne, if_true]
      have h2 := ih (i + 1) hlt
      simp only [incRCFrom] at h2
      rw [List.cons_append, h2]
      have hg : updInc g a i = g i := by simp [updInc]; omega
      rw [hg]

theorem incRCFrom_chainSeg (vs : List T) (g : Nat → Nat) (m a : Nat) (hma : m ≤ a) :
    incRCFrom (chainSeg vs g m) (some a) = chainSeg vs (updInc g a) m :=
  incRCFrom_segOf g a _ m hma

theorem filter_segOf_alive (g : Nat → Nat) (l : List T) :
    ∀ i, (∀ x, i ≤ x → x < i + l.length → g x ≠ 0) →
      (segOf g i l).filter (fun b => b.2.reference_count != 0) = segOf g i l := by
  induction l with
  | nil => intro i _; rfl
  | cons v rest ih =>
    intro i hg
    have h0 : g i ≠ 0 := hg i le_rfl (by simp)
    simp only [segOf, List.filter_cons]
    have hcond : (g i != 0) = true := by simp [h0]
    simp only [hcond, if_true]
    rw [ih (i + 1) (fun x hx hx2 => hg x (by omega) (by simp only [List.length_cons] at hx2 ⊢; omega))]

theorem filter_segOf (g : Nat → Nat) (l : List T) :
    ∀ i j, i ≤ j → (∀ x, i ≤ x → x < j → g x = 0) →
      (∀ x, j ≤ x → x < i + l.length → g x ≠ 0) →
      (segOf g i l).filter (fun b => b.2.reference_count != 0) = segOf g j (l.drop (j - i)) := by
  induction l with
  | nil => intro i j _ _ _; simp [segOf]
  | cons v rest ih =>
    intro i j hij hdead halive
    rcases Nat.eq_or_lt_of_le hij with rfl | hlt
    · simp only [Nat.sub_self, List.drop_zero]
      exact filter_segOf_alive g (v :: rest) i halive
    · have h0 : g i = 0 := hdead i le_rfl hlt
      simp only [segOf, List.filter_cons, h0]
      simp only [bne_self_eq_false, if_false, Bool.false_eq_true]
      have h2 := ih (i + 1) j hlt (fun x hx hx2 => hdead x (by omega) hx2)
        (fun x hx hx2 => halive x hx (by simp only [List.length_cons] at hx2 ⊢; omega))
      rw [h2]
      have h3 : j - i = (j - (i + 1)) + 1 := by omega
      rw [h3, List.drop_succ_cons]

theorem filter_chainSeg (vs : List T) (g : Nat → Nat) (m m' : Nat) (hmm : m ≤ m')
    (hdead : ∀ x, m ≤ x → x < m' → g x = 0)
    (halive : ∀ x, m' ≤ x → x < vs.length → g x ≠ 0) :
    (chainSeg vs g m).filter (fun b => b.2.reference_count != 0) = chainSeg vs g m' := by
  by_cases hm : m ≤ vs.length
  · unfold chainSeg
    rw [filter_segOf g _ m m' hmm hdead
      (fun x hx hx2 => halive x hx (by simp at hx2; omega))]
    rw [List.drop_drop]
    by_cases hm' : m' ≤ vs.length
    · have : m + (m' - m) = m' := by omega
      rw [this]
    · rw [List.drop_eq_nil_of_le (by omega), List.drop_eq_nil_of_le (by omega)]
  · rw [chainSeg_nil vs g m (by omega), chainSeg_nil vs g m' (by omega)]
    rfl

/-! ## Counting lemmas for the abstract handle list -/

theorem countP_set (p : HAbs → Bool) (h' : HAbs) :
    ∀ (hs : List HAbs) (j : Nat) (h : HAbs), hs[j]? = some h →
      (hs.set j h').countP p + (if p h then 1 else 0) =
        hs.countP p + (if p h' then 1 else 0) := by
  intro hs
  induction hs with
  | nil => intro j h hj; simp at hj
  | cons x t ih =>
    intro j h hj
    cases j with
    | zero =>
      simp only [List.getElem?_cons_zero, Option.some.injEq] at hj
      subst hj
      simp only [List.set_cons_zero, List.countP_cons]
      omega
    | succ n =>
      simp only [List.getElem?_cons_succ] at hj
      have := ih n h hj
      simp only [List.set_cons_succ, List.countP_cons]
      omega

theorem rcOf_set (hs : List HAbs) (j : Nat) (h h' : HAbs) (hj : hs[j]? = some h) (i : Nat) :
    rcOf (hs.set j h') i + (if h.decPos ≤ i then 1 else 0) =
      rcOf hs i + (if h'.decPos ≤ i then 1 else 0) := by
  have := countP_set (fun x => decide (x.decPos ≤ i)) h' hs j h hj
  simp only [rcOf]
  simpa using this

theorem countEnd_set (hs : List HAbs) (j : Nat) (h h' : HAbs) (hj : hs[j]? = some h) :
    countEnd (hs.set j h') + (if h.isEnd then 1 else 0) =
      countEnd hs + (if h'.isEnd then 1 else 0) := by
  have := countP_set (fun x => x.isEnd) h' hs j h hj
  simpa [countEnd] using this

theorem rcOf_mono (hs : List HAbs) (i j : Nat) (hij : i ≤ j) : rcOf hs i ≤ rcOf hs j := by
  induction hs with
  | nil => simp [rcOf]
  | cons x t ih =>
    simp only [rcOf, List.countP_cons] at *
    by_cases hx : x.decPos ≤ i
    · have : x.decPos ≤ j := le_trans hx hij
      simp [hx, this]
      omega
    · by_cases hx2 : x.decPos ≤ j <;> simp [hx, hx2] <;> omega

theorem rcOf_pos_of_mem (hs : List HAbs) (h : HAbs) (hm : h ∈ hs) (i : Nat)
    (hd : h.decPos ≤ i) : 0 < rcOf hs i := by
  rw [rcOf, List.countP_pos_iff]
  exact ⟨h, hm, by simpa using hd⟩

theorem rcOf_append (hs hs' : List HAbs) (i : Nat) :
    rcOf (hs ++ hs') i = rcOf hs i + rcOf hs' i := by
  simp [rcOf, List.countP_append]

theorem countEnd_append (hs hs' : List HAbs) :
    countEnd (hs ++ hs') = countEnd hs + countEnd hs' := by
  simp [countEnd, List.countP_append]

theorem rcOf_single (h : HAbs) (i : Nat) :
    rcOf [h] i = if h.decPos ≤ i then 1 else 0 := by
  simp only [rcOf, List.countP_cons, List.countP_nil]
  by_cases hd : h.decPos ≤ i <;> simp [hd]

theorem rcOf_eq_length (hs : List HAbs) (i : Nat) (h : ∀ x ∈ hs, x.decPos ≤ i) :
    rcOf hs i = hs.length := by
  rw [rcOf, List.countP_eq_length]
  intro a ha
  simpa using h a ha

theorem decPos_le_consumed (h : HAbs) : h.decPos ≤ h.consumed := by
  cases h <;> simp [HAbs.decPos, HAbs.consumed]

theorem decPos_lt_of_valid (h : HAbs) (M : Nat) (hv : h.valid M) (hM : M ≠ 0) :
    h.decPos < M := by
  cases h with
  | U => simp [HAbs.decPos]; omega
  | B k => simp [HAbs.decPos]; simpa [HAbs.valid] using hv
  | C k => simp only [HAbs.valid] at hv; simp [HAbs.decPos]; omega

theorem consumed_le_of_valid (h : HAbs) (M : Nat) (hv : h.valid M) : h.consumed ≤ M := by
  cases h with
  | U => simp [HAbs.consumed]
  | B k => simp only [HAbs.valid] at hv; simp [HAbs.consumed]; omega
  | C k => simp only [HAbs.valid] at hv; simp [HAbs.consumed]; omega

/-! ## Basic consequences of the invariant -/

theorem CoreInv.m_lt_of_ne_nil {vs : List T} {hs : List HAbs} {m : Nat} {c : Core T}
    (inv : CoreInv vs hs m c) (hvs : vs ≠ []) : m < vs.length := by
  rcases List.exists_mem_of_ne_nil hs inv.hs_ne with ⟨h, hm⟩
  have hlen : vs.length ≠ 0 := by
    intro h0
    exact hvs (List.length_eq_zero.mp h0)
  have hd : h.decPos < vs.length := decPos_lt_of_valid h vs.length (inv.valid h hm) hlen
  have hpos : 0 < rcOf hs (vs.length - 1) :=
    rcOf_pos_of_mem hs h hm (vs.length - 1) (by omega)
  by_contra hlt
  have : vs.length - 1 < m := by omega
  have := inv.dead_below (vs.length - 1) this
  omega

theorem CoreInv.m_eq_zero_of_U {vs : List T} {hs : List HAbs} {m : Nat} {c : Core T}
    (inv : CoreInv vs hs m c) (hU : HAbs.U ∈ hs) : m = 0 := by
  by_contra hm
  have hpos : 0 < rcOf hs 0 := rcOf_pos_of_mem hs .U hU 0 (by simp [HAbs.decPos])
  have := inv.dead_below 0 (by omega)
  omega

theorem CoreInv.empty_eq {vs : List T} {hs : List HAbs} {m : Nat} {c : Core T}
    (inv : CoreInv vs hs m c) : c.empty = decide (vs.length ≤ m) := by
  rw [Core.empty, inv.chain_eq, isEmpty_chainSeg]

theorem CoreInv.empty_iff {vs : List T} {hs : List HAbs} {m : Nat} {c : Core T}
    (inv : CoreInv vs hs m c) : c.empty = true ↔ vs = [] := by
  rw [inv.empty_eq]
  constructor
  · intro hle
    simp at hle
    by_contra hvs
    have := inv.m_lt_of_ne_nil hvs
    omega
  · intro hvs
    subst hvs
    simp

theorem set_of_getElem? {α : Type} : ∀ (l : List α) (j : Nat) (a : α), l[j]? = some a →
    l.set j a = l := by
  intro l
  induction l with
  | nil => intro j a hj; simp at hj
  | cons x t ih =>
    intro j a hj
    cases j with
    | zero =>
      simp only [List.getElem?_cons_zero, Option.some.injEq] at hj
      subst hj
      simp
    | succ n =>
      simp only [List.getElem?_cons_succ] at hj
      simp [ih n a hj]

theorem concr_head_of_ne_U (h : HAbs) (hne : h ≠ .U) :
    (h.concr : MultiQueue T).head = some h.decPos := by
  cases h with
  | U => exact absurd rfl hne
  | B k => rfl
  | C k => rfl

theorem concr_at_end (h : HAbs) : (h.concr : MultiQueue T).at_end_of_queue = h.isEnd := by
  cases h <;> rfl

theorem valid_set (hs : List HAbs) (M : Nat) (j : Nat) (h' : HAbs)
    (hval : ∀ x ∈ hs, x.valid M) (hv' : h'.valid M) : ∀ x ∈ hs.set j h', x.valid M :=
  fun x hx => (List.mem_or_eq_of_mem_set hx).elim (hval x) (fun e => e ▸ hv')

/-- `CoreInv` is stable under replacing a handle descriptor by one with the
same claim position and end flag. -/
theorem CoreInv.set_congr {vs : List T} {hs : List HAbs} {m : Nat} {c : Core T}
    (inv : CoreInv vs hs m c) {j : Nat} {h : HAbs} (hj : hs[j]? = some h) (h' : HAbs)
    (hd : h'.decPos = h.decPos) (he : h'.isEnd = h.isEnd) (hv : h'.valid vs.length) :
    CoreInv vs (hs.set j h') m c := by
  have hrc : ∀ i, rcOf (hs.set j h') i = rcOf hs i := by
    intro i
    have := rcOf_set hs j h h' hj i
    rw [hd] at this
    omega
  have hce : countEnd (hs.set j h') = countEnd hs := by
    have := countEnd_set hs j h h' hj
    rw [he] at this
    omega
  refine ⟨?_, ?_, ?_, ?_, ?_, ?_, inv.m_le, ?_, ?_⟩
  · rw [inv.chain_eq]
    exact chainSeg_congr vs _ _ m (fun x _ _ => (hrc x).symm)
  · rw [List.length_set]; exact inv.rc_eq
  · rw [hce]; exact inv.cae_eq
  · exact inv.fresh_eq
  · intro hnil
    exact inv.hs_ne (by cases hs <;> simp_all)
  · exact valid_set hs vs.length j h' inv.valid hv
  · intro i hi; rw [hrc]; exact inv.dead_below i hi
  · intro i hi hi2; rw [hrc]; exact inv.alive_from i hi hi2

theorem CoreInv.rcOf_self_pos {vs : List T} {hs : List HAbs} {m : Nat} {c : Core T}
    (_inv : CoreInv vs hs m c) {j : Nat} {h : HAbs} (hj : hs[j]? = some h) {i : Nat}
    (hd : h.decPos ≤ i) : 0 < rcOf hs i :=
  rcOf_pos_of_mem hs h (List.getElem?_mem hj) i hd

/-- The handle's own claim position is at or past `m`. -/
theorem CoreInv.m_le_decPos {vs : List T} {hs : List HAbs} {m : Nat} {c : Core T}
    (inv : CoreInv vs hs m c) {j : Nat} {h : HAbs} (hj : hs[j]? = some h) :
    m ≤ h.decPos := by
  by_contra hlt
  have h0 := inv.dead_below h.decPos (by omega)
  have := inv.rcOf_self_pos hj (le_refl h.decPos)
  omega

/-- Specification of `MultiQueue::empty` on a reachable state: a handle
sees an empty queue exactly when it has consumed everything pushed. -/
theorem empty_spec {vs : List T} {hs : List HAbs} {m : Nat} {c : Core T}
    (inv : CoreInv vs hs m c) {j : Nat} {h : HAbs} (hj : hs[j]? = some h) :
    MultiQueue.empty true (h.concr) c = decide (h.consumed = vs.length) := by
  have hvalid := inv.valid h (List.getElem?_mem hj)
  cases h with
  | U =>
    have hm0 : m = 0 := inv.m_eq_zero_of_U (List.getElem?_mem hj)
    simp only [MultiQueue.empty, HAbs.concr, HAbs.consumed, if_true, Option.isNone_none]
    rw [inv.empty_eq]
    simp
    omega
  | B k =>
    simp only [HAbs.valid] at hvalid
    have hred : MultiQueue.empty true ((HAbs.B k).concr) c = false := by
      simp [MultiQueue.empty, HAbs.concr]
    rw [hred]
    simp [HAbs.consumed]
    omega
  | C k =>
    simp only [HAbs.valid] at hvalid
    have hmk : m ≤ k - 1 := inv.m_le_decPos hj
    have hred : MultiQueue.empty true ((HAbs.C k).concr) c
        = (ptrNext c.chain (some (k - 1))).isNone := by
      simp [MultiQueue.empty, HAbs.concr]
    rw [hred, inv.chain_eq, ptrNext_chainSeg vs _ m (k - 1) hmk]
    by_cases hk : k - 1 + 1 < vs.length
    · simp [hk, HAbs.consumed]
      omega
    · simp [hk, HAbs.consumed]
      omega

/-- Specification of `MultiQueue::size` on a reachable state: the values
still pending for this handle. -/
theorem size_spec {vs : List T} {hs : List HAbs} {m : Nat} {c : Core T}
    (inv : CoreInv vs hs m c) {j : Nat} {h : HAbs} (hj : hs[j]? = some h) :
    MultiQueue.size true (h.concr) c = vs.length - h.consumed := by
  have hvalid := inv.valid h (List.getElem?_mem hj)
  by_cases hvs : vs = []
  · subst hvs
    have : c.empty = true := inv.empty_iff.mpr rfl
    simp only [MultiQueue.size, this, if_true]
    have := consumed_le_of_valid h 0 (by simpa using hvalid)
    simp
  · have hml := inv.m_lt_of_ne_nil hvs
    have hne : c.empty = false := by
      rw [inv.empty_eq]
      simp
      omega
    cases h with
    | U =>
      have hm0 : m = 0 := inv.m_eq_zero_of_U (List.getElem?_mem hj)
      simp only [MultiQueue.size, hne, Bool.false_eq_true, if_false, if_true, HAbs.concr,
        HAbs.consumed, Option.isNone_none]
      rw [headPtr_chain_chainSeg c vs _ m inv.chain_eq, if_pos hml]
      unfold countFrom
      rw [inv.chain_eq, suffixFrom_chainSeg vs _ m m le_rfl, chainSeg_length]
      omega
    | B k =>
      simp only [HAbs.valid] at hvalid
      have hmk : m ≤ k := inv.m_le_decPos hj
      simp only [MultiQueue.size, hne, Bool.false_eq_true, if_false, if_true, HAbs.concr,
        HAbs.consumed, Option.isNone_some]
      unfold countFrom
      rw [inv.chain_eq, suffixFrom_chainSeg vs _ m k hmk, chainSeg_length]
    | C k =>
      simp only [HAbs.valid] at hvalid
      have hmk : m ≤ k - 1 := inv.m_le_decPos hj
      simp only [MultiQueue.size, hne, Bool.false_eq_true, if_false, if_true, HAbs.concr,
        HAbs.consumed, Option.isNone_some]
      rw [inv.chain_eq, ptrNext_chainSeg vs _ m (k - 1) hmk]
      by_cases hk : k - 1 + 1 < vs.length
      · unfold countFrom
        rw [if_pos hk, suffixFrom_chainSeg vs _ m (k - 1 + 1) (by omega), chainSeg_length]
        omega
      · rw [if_neg hk]
        unfold countFrom
        simp only [suffixFrom, List.length_nil]
        omega

theorem valid_zero (h : HAbs) (hv : h.valid 0) : h = .U := by
  cases h with
  | U => rfl
  | B k => simp [HAbs.valid] at hv
  | C k => simp [HAbs.valid] at hv; omega

/-- After a handle advances (possibly emptying some block reference
counts), a new least-claimed index exists with the properties the
invariant needs. -/
theorem exists_least_alive (hs' : List HAbs) (vs : List T) (m : Nat)
    (hdead : ∀ i, i < m → rcOf hs' i = 0)
    {j : Nat} {h' : HAbs} (hj' : hs'[j]? = some h') (hlt : h'.decPos < vs.length) :
    ∃ m', m ≤ m' ∧ m' ≤ h'.decPos ∧ m' ≤ vs.length ∧
      (∀ i, i < m' → rcOf hs' i = 0) ∧
      (∀ i, m' ≤ i → i < vs.length → rcOf hs' i ≠ 0) := by
  have hex : ∃ x, rcOf hs' x ≠ 0 :=
    ⟨h'.decPos, by
      have := rcOf_pos_of_mem hs' h' (List.getElem?_mem hj') h'.decPos le_rfl
      omega⟩
  refine ⟨Nat.find hex, ?_, ?_, ?_, ?_, ?_⟩
  · by_contra hmm
    have hd := hdead (Nat.find hex) (by omega)
    exact (Nat.find_spec hex) hd
  · by_contra hmm
    have := Nat.find_min hex (m := h'.decPos) (by omega)
    simp only [not_not] at this
    have hp := rcOf_pos_of_mem hs' h' (List.getElem?_mem hj') h'.decPos le_rfl
    omega
  · have hfind : Nat.find hex ≤ h'.decPos := by
      by_contra hmm
      have := Nat.find_min hex (m := h'.decPos) (by omega)
      simp only [not_not] at this
      have hp := rcOf_pos_of_mem hs' h' (List.getElem?_mem hj') h'.decPos le_rfl
      omega
    omega
  · intro i hi
    have := Nat.find_min hex hi
    simpa using this
  · intro i hi _
    have hmono := rcOf_mono hs' (Nat.find hex) i hi
    have := Nat.find_spec hex
    omega

theorem lt_length_of_getElem? {α : Type} {l : List α} {j : Nat} {a : α}
    (hj : l[j]? = some a) : j < l.length := by
  by_contra hjl
  rw [List.getElem?_eq_none (by omega)] at hj
  exact Option.noConfusion hj

theorem getElem?_set_self' {α : Type} {l : List α} {j : Nat} (h : j < l.length)
    (b : α) : (l.set j b)[j]? = some b := by
  simp [List.getElem?_set_self, h]

/-- Rebuilding the invariant after a handle advanced from descriptor `h` to
`h'` and `Core::update` ran: given the pre-filter chain already matches the
new claim counts from the old threshold `m`, the filter yields the chain at
the new least-claimed index. -/
theorem CoreInv.rebuild {vs : List T} {hs : List HAbs} {m : Nat} {c : Core T}
    (inv : CoreInv vs hs m c) {j : Nat} {h : HAbs} (hj : hs[j]? = some h)
    (h' : HAbs) (hv' : h'.valid vs.length) (hd' : h'.decPos < vs.length)
    (hdge : h.decPos ≤ h'.decPos)
    (preChain : List (Nat × Block T))
    (hpre : preChain = chainSeg vs (rcOf (hs.set j h')) m)
    (cae' : Nat) (hcae : cae' = countEnd (hs.set j h')) :
    ∃ m',
      preChain.filter (fun b => b.2.reference_count != 0) =
        chainSeg vs (rcOf (hs.set j h')) m' ∧
      CoreInv vs (hs.set j h') m'
        { chain := preChain.filter (fun b => b.2.reference_count != 0)
          reference_count := c.reference_count
          count_at_end_of_queue := cae'
          fresh := c.fresh } := by
  have hjl : j < hs.length := lt_length_of_getElem? hj
  have hj' : (hs.set j h')[j]? = some h' := getElem?_set_self' hjl h'
  have hmd : m ≤ h.decPos := inv.m_le_decPos hj
  have hdead' : ∀ i, i < m → rcOf (hs.set j h') i = 0 := by
    intro i hi
    have hrel := rcOf_set hs j h h' hj i
    have h0 := inv.dead_below i hi
    rw [if_neg (show ¬ (h.decPos ≤ i) by omega),
      if_neg (show ¬ (h'.decPos ≤ i) by omega)] at hrel
    omega
  obtain ⟨m', hmm', hm'd, hm'l, hdead2, halive2⟩ :=
    exists_least_alive (hs.set j h') vs m hdead' hj' hd'
  have hupd : preChain.filter (fun b => b.2.reference_count != 0) =
      chainSeg vs (rcOf (hs.set j h')) m' := by
    rw [hpre]
    apply filter_chainSeg vs _ m m' hmm'
    · intro x _ hx2
      exact hdead2 x hx2
    · exact halive2
  refine ⟨m', hupd, hupd, ?_, hcae, inv.fresh_eq, ?_, ?_, hm'l, hdead2, halive2⟩
  · show c.reference_count = (hs.set j h').length
    rw [List.length_set]
    exact inv.rc_eq
  · intro hnil
    exact inv.hs_ne (by cases hs <;> simp_all)
  · exact valid_set hs vs.length j h' inv.valid hv'

/-- Replacing a handle by one with the same claim position leaves the
chain's reference counts unchanged. -/
theorem chain_same {vs : List T} {hs : List HAbs} {m : Nat} {c : Core T}
    (inv : CoreInv vs hs m c) {j : Nat} {h : HAbs} (hj : hs[j]? = some h)
    (h' : HAbs) (hdp : h'.decPos = h.decPos) :
    c.chain = chainSeg vs (rcOf (hs.set j h')) m := by
  rw [inv.chain_eq]
  apply chainSeg_congr
  intro x _ _
  have hrel := rcOf_set hs j h h' hj x
  rw [hdp] at hrel
  omega

/-- One reference-count decrement at the handle's claim position realises
an advance of that position by one. -/
theorem chain_dec_one {vs : List T} {hs : List HAbs} {m : Nat} {c : Core T}
    (inv : CoreInv vs hs m c) {j : Nat} {h : HAbs} (hj : hs[j]? = some h)
    (h' : HAbs) (hdp : h'.decPos = h.decPos + 1) :
    decRC c.chain h.decPos = chainSeg vs (rcOf (hs.set j h')) m := by
  have hpos := inv.rcOf_self_pos hj (le_refl h.decPos)
  rw [inv.chain_eq, decRC_chainSeg]
  apply chainSeg_congr
  intro x _ _
  have hrel := rcOf_set hs j h h' hj x
  rw [hdp] at hrel
  simp only [updDec]
  by_cases hx : x = h.decPos
  · subst hx
    rw [if_pos rfl]
    rw [if_pos (le_refl _), if_neg (by omega)] at hrel
    omega
  · rw [if_neg hx]
    by_cases hx2 : h.decPos ≤ x
    · rw [if_pos hx2, if_pos (by omega)] at hrel
      omega
    · rw [if_neg hx2, if_neg (by omega)] at hrel
      omega

/-- Two consecutive decrements at the handle's claim position realise an
advance of that position by two. -/
theorem chain_dec_two {vs : List T} {hs : List HAbs} {m : Nat} {c : Core T}
    (inv : CoreInv vs hs m c) {j : Nat} {h : HAbs} (hj : hs[j]? = some h)
    (h' : HAbs) (hdp : h'.decPos = h.decPos + 2) :
    decRC (decRC c.chain h.decPos) (h.decPos + 1) =
      chainSeg vs (rcOf (hs.set j h')) m := by
  have hpos := inv.rcOf_self_pos hj (le_refl h.decPos)
  have hpos2 := inv.rcOf_self_pos hj (show h.decPos ≤ h.decPos + 1 by omega)
  rw [inv.chain_eq, decRC_chainSeg, decRC_chainSeg]
  apply chainSeg_congr
  intro x _ _
  have hrel := rcOf_set hs j h h' hj x
  rw [hdp] at hrel
  simp only [updDec]
  by_cases hx : x = h.decPos
  · subst hx
    rw [if_neg (by omega), if_pos rfl]
    rw [if_pos (le_refl _), if_neg (by omega)] at hrel
    omega
  · by_cases hx1 : x = h.decPos + 1
    · subst hx1
      rw [if_pos rfl, if_neg (by omega)]
      rw [if_pos (by omega), if_neg (by omega)] at hrel
      omega
    · rw [if_neg hx1, if_neg hx]
      by_cases hx2 : h.decPos ≤ x
      · rw [if_pos hx2, if_pos (by omega)] at hrel
        omega
      · rw [if_neg hx2, if_neg (by omega)] at hrel
        omega

/-- Specification of `MultiQueue::front` on a reachable state: the call
returns the first value this handle has not yet consumed (or `none`), and
the state moves to the `frontAbs` descriptor without consuming anything. -/
theorem front_spec {vs : List T} {hs : List HAbs} {m : Nat} {c : Core T}
    (inv : CoreInv vs hs m c) {j : Nat} {h : HAbs} (hj : hs[j]? = some h) :
    ∃ c' m', MultiQueue.front true (h.concr) c =
        ((vs.drop h.consumed).head?, ((frontAbs vs.length h).concr : MultiQueue T), c') ∧
      CoreInv vs (hs.set j (frontAbs vs.length h)) m' c' := by
  have hvalid := inv.valid h (List.getElem?_mem hj)
  by_cases hvs : vs = []
  · subst hvs
    have hU : h = .U := valid_zero h (by simpa using hvalid)
    subst hU
    have hemp : c.empty = true := inv.empty_iff.mpr rfl
    have hred : MultiQueue.front true ((HAbs.U).concr) c = (none, (HAbs.U).concr, c) := by
      simp [MultiQueue.front, hemp]
    refine ⟨c, m, ?_, ?_⟩
    · rw [hred]
      simp [frontAbs, HAbs.consumed]
    · have habs : frontAbs ([] : List T).length .U = .U := by
        simp [frontAbs, HAbs.consumed]
      rw [habs, set_of_getElem? hs j .U hj]
      exact inv
  · have hml := inv.m_lt_of_ne_nil hvs
    have hemp : c.empty = false := by
      rw [inv.empty_eq]; simp; omega
    cases h with
    | U =>
      have hm0 : m = 0 := inv.m_eq_zero_of_U (List.getElem?_mem hj)
      have hhead : c.headPtr = some 0 := by
        rw [headPtr_chain_chainSeg c vs _ m inv.chain_eq, if_pos hml, hm0]
      have hget : getBlock c.chain (some 0) =
          some { object := vs.get ⟨0, by omega⟩, reference_count := rcOf hs 0 } := by
        rw [inv.chain_eq]
        exact getBlock_chainSeg vs _ m 0 (by omega) (by omega)
      have hred : MultiQueue.front true ((HAbs.U).concr) c =
          (some (vs.get ⟨0, by omega⟩), ((HAbs.B 0).concr : MultiQueue T), c) := by
        simp [MultiQueue.front, hemp, HAbs.concr, hhead, hget]
      have habs : frontAbs vs.length .U = .B 0 := by
        simp only [frontAbs, HAbs.consumed]
        rw [if_pos (by omega)]
      refine ⟨c, m, ?_, ?_⟩
      · rw [hred, habs, show (HAbs.U).consumed = 0 from rfl, List.head?_drop]
        rw [List.getElem?_eq_getElem (by omega)]
        simp
      · rw [habs]
        exact inv.set_congr hj (.B 0) rfl rfl (by simp [HAbs.valid]; omega)
    | B k =>
      simp only [HAbs.valid] at hvalid
      have hmk : m ≤ k := inv.m_le_decPos hj
      have hget : getBlock c.chain (some k) =
          some { object := vs.get ⟨k, hvalid⟩, reference_count := rcOf hs k } := by
        rw [inv.chain_eq]
        exact getBlock_chainSeg vs _ m k hmk hvalid
      have hred : MultiQueue.front true ((HAbs.B k).concr) c =
          (some (vs.get ⟨k, hvalid⟩), ((HAbs.B k).concr : MultiQueue T), c) := by
        simp [MultiQueue.front, hemp, HAbs.concr, hget]
      have habs : frontAbs vs.length (.B k) = .B k := by
        simp [frontAbs, HAbs.consumed]
      refine ⟨c, m, ?_, ?_⟩
      · rw [hred, habs, show (HAbs.B k).consumed = k from rfl, List.head?_drop,
          List.getElem?_eq_getElem hvalid]
        simp
      · rw [habs, set_of_getElem? hs j (.B k) hj]
        exact inv
    | C k =>
      simp only [HAbs.valid] at hvalid
      have hmk : m ≤ k - 1 := inv.m_le_decPos hj
      by_cases hkM : k = vs.length
      · have hptr : ptrNext c.chain (some (k - 1)) = none := by
          rw [inv.chain_eq, ptrNext_chainSeg vs _ m (k - 1) hmk, if_neg (by omega)]
        have hred : MultiQueue.front true ((HAbs.C k).concr) c =
            (none, ((HAbs.C k).concr : MultiQueue T), c) := by
          simp [MultiQueue.front, hemp, HAbs.concr, hptr]
        have habs : frontAbs vs.length (.C k) = .C k := by
          simp only [frontAbs, HAbs.consumed]
          rw [if_neg (by omega)]
        refine ⟨c, m, ?_, ?_⟩
        · rw [hred, habs, show (HAbs.C k).consumed = k from rfl, List.head?_drop,
            List.getElem?_eq_none (by omega)]
        · rw [habs, set_of_getElem? hs j (.C k) hj]
          exact inv
      · have hkM' : k < vs.length := by omega
        have hptr : ptrNext c.chain (some (k - 1)) = some k := by
          rw [inv.chain_eq, ptrNext_chainSeg vs _ m (k - 1) hmk, if_pos (by omega)]
          congr 1
          omega
        set hs' := hs.set j (.B k) with hhs'
        have hj' : hs'[j]? = some (.B k) := by
          rw [hhs']
          have : j < hs.length := by
            by_contra hjl
            rw [List.getElem?_eq_none (by omega)] at hj
            exact Option.noConfusion hj
          simp [List.getElem?_set_self, this]
        have hrel : ∀ i, rcOf hs' i + (if k - 1 ≤ i then 1 else 0) =
            rcOf hs i + (if k ≤ i then 1 else 0) := by
          intro i
          have := rcOf_set hs j (.C k) (.B k) hj i
          simpa [HAbs.decPos] using this
        have hgpos : 0 < rcOf hs (k - 1) := inv.rcOf_self_pos hj le_rfl
        have hchain1 : decRC c.chain (k - 1) = chainSeg vs (rcOf hs') m := by
          rw [inv.chain_eq, decRC_chainSeg]
          apply chainSeg_congr
          intro x _ _
          have hx := hrel x
          simp only [updDec]
          by_cases hx1 : x = k - 1
          · subst hx1
            rw [if_pos rfl]
            rw [if_pos (le_refl (k - 1)), if_neg (show ¬ (k ≤ k - 1) by omega)] at hx
            omega
          · rw [if_neg hx1]
            by_cases hx2 : k - 1 ≤ x
            · rw [if_pos hx2, if_pos (show k ≤ x by omega)] at hx
              omega
            · rw [if_neg hx2, if_neg (show ¬ (k ≤ x) by omega)] at hx
              omega
        have hdead' : ∀ i, i < m → rcOf hs' i = 0 := by
          intro i hi
          have := hrel i
          have h0 := inv.dead_below i hi
          have : ¬ (k - 1 ≤ i) := by omega
          have h2 := hrel i
          rw [if_neg this] at h2
          by_cases h3 : k ≤ i
          · omega
          · rw [if_neg h3] at h2; omega
        obtain ⟨m', hmm', hm'd, hm'l, hdead2, halive2⟩ :=
          exists_least_alive hs' vs m hdead' hj' (by simpa [HAbs.decPos] using hkM')
        have hupd : (chainSeg vs (rcOf hs') m).filter (fun b => b.2.reference_count != 0) =
            chainSeg vs (rcOf hs') m' := by
          apply filter_chainSeg vs _ m m' hmm'
          · intro x hx1 hx2
            exact hdead2 x hx2
          · exact halive2
        have hcE : countEnd hs' + 1 = countEnd hs := by
          have := countEnd_set hs j (.C k) (.B k) hj
          simpa [HAbs.isEnd] using this
        have hget : getBlock (chainSeg vs (rcOf hs') m') (some k) =
            some { object := vs.get ⟨k, hkM'⟩, reference_count := rcOf hs' k } :=
          getBlock_chainSeg vs _ m' k (by simp [HAbs.decPos] at hm'd; omega) hkM'
        have habs : frontAbs vs.length (.C k) = .B k := by
          simp only [frontAbs, HAbs.consumed]
          rw [if_pos (by omega)]
        refine ⟨{ chain := chainSeg vs (rcOf hs') m'
                  reference_count := c.reference_count
                  count_at_end_of_queue := c.count_at_end_of_queue - 1
                  fresh := c.fresh }, m', ?_, ?_⟩
        · rw [habs]
          have hred : MultiQueue.front true ((HAbs.C k).concr) c =
              (some (vs.get ⟨k, hkM'⟩), ((HAbs.B k).concr : MultiQueue T),
                { chain := chainSeg vs (rcOf hs') m'
                  reference_count := c.reference_count
                  count_at_end_of_queue := c.count_at_end_of_queue - 1
                  fresh := c.fresh }) := by
            simp only [MultiQueue.front, hemp, HAbs.concr, Bool.false_eq_true, if_false,
              Option.isNone_some, if_true, hptr, Core.update, hchain1, hupd, hget]
            simp
          rw [hred, show (HAbs.C k).consumed = k from rfl, List.head?_drop,
            List.getElem?_eq_getElem hkM']
          simp
        · rw [habs, ← hhs']
          refine ⟨rfl, ?_, ?_, inv.fresh_eq, ?_, ?_, hm'l, hdead2, halive2⟩
          · rw [hhs', List.length_set]; exact inv.rc_eq
          · show c.count_at_end_of_queue - 1 = countEnd hs'
            rw [inv.cae_eq]
            omega
          · rw [hhs']
            intro hnil
            exact inv.hs_ne (by cases hs <;> simp_all)
          · rw [hhs']
            exact valid_set hs vs.length j (.B k) inv.valid (by simp [HAbs.valid]; omega)

/-- Specification of `MultiQueue::pop_front` on a reachable state: the
handle consumes its next pending value (or nothing), moving to the
`popAbs` descriptor. -/
theorem pop_spec {vs : List T} {hs : List HAbs} {m : Nat} {c : Core T}
    (inv : CoreInv vs hs m c) {j : Nat} {h : HAbs} (hj : hs[j]? = some h) :
    ∃ c' m', MultiQueue.pop_front true (h.concr) c =
        (((popAbs vs.length h).concr : MultiQueue T), c') ∧
      CoreInv vs (hs.set j (popAbs vs.length h)) m' c' := by
  have hvalid := inv.valid h (List.getElem?_mem hj)
  by_cases hvs : vs = []
  · subst hvs
    have hU : h = .U := valid_zero h (by simpa using hvalid)
    subst hU
    have hemp : c.empty = true := inv.empty_iff.mpr rfl
    have hred : MultiQueue.pop_front true ((HAbs.U).concr) c = ((HAbs.U).concr, c) := by
      simp [MultiQueue.pop_front, hemp]
    have habs : popAbs ([] : List T).length .U = .U := by
      simp [popAbs, HAbs.consumed]
    refine ⟨c, m, ?_, ?_⟩
    · rw [hred, habs]
    · rw [habs, set_of_getElem? hs j .U hj]
      exact inv
  · have hml := inv.m_lt_of_ne_nil hvs
    have hemp : c.empty = false := by
      rw [inv.empty_eq]; simp; omega
    cases h with
    | U =>
      have hm0 : m = 0 := inv.m_eq_zero_of_U (List.getElem?_mem hj)
      have hhead : c.headPtr = some 0 := by
        rw [headPtr_chain_chainSeg c vs _ m inv.chain_eq, if_pos hml, hm0]
      have hptr : ptrNext c.chain (some 0) =
          if 0 + 1 < vs.length then some (0 + 1) else none := by
        rw [inv.chain_eq]
        exact ptrNext_chainSeg vs _ m 0 (by omega)
      by_cases hM : vs.length = 1
      · have hptr0 : ptrNext c.chain (some 0) = none := by
          rw [hptr, if_neg (by omega)]
        have habs : popAbs vs.length .U = .C 1 := by
          simp only [popAbs, HAbs.consumed]
          rw [if_pos (by omega), if_pos (by omega)]
          rw [hM]
        have hcon : ((HAbs.C 1).concr : MultiQueue T)
            = { head := some 0, at_end_of_queue := true } := by
          simp [HAbs.concr]
        have hred : MultiQueue.pop_front true ((HAbs.U).concr) c =
            ({ head := some 0, at_end_of_queue := true },
              { chain := c.chain.filter (fun b => b.2.reference_count != 0)
                reference_count := c.reference_count
                count_at_end_of_queue := c.count_at_end_of_queue + 1
                fresh := c.fresh }) := by
          simp [MultiQueue.pop_front, hemp, HAbs.concr, hhead, hptr0, Core.update]
        have hcae : c.count_at_end_of_queue + 1 = countEnd (hs.set j (.C 1)) := by
          have := countEnd_set hs j .U (.C 1) hj
          rw [inv.cae_eq]
          simp [HAbs.isEnd] at this
          omega
        obtain ⟨m', hchain', hinv⟩ := inv.rebuild hj (.C 1)
          (by simp [HAbs.valid]; omega) (by simp only [HAbs.decPos]; omega)
          (by simp [HAbs.decPos]) c.chain (chain_same inv hj (.C 1) (by simp [HAbs.decPos]))
          (c.count_at_end_of_queue + 1) hcae
        rw [habs]
        exact ⟨_, m', by rw [hred, hcon], hinv⟩
      · have hptr1 : ptrNext c.chain (some 0) = some 1 := by
          rw [hptr, if_pos (by omega)]
        have habs : popAbs vs.length .U = .B 1 := by
          simp only [popAbs, HAbs.consumed]
          rw [if_pos (by omega), if_neg (by omega)]
        have hred : MultiQueue.pop_front true ((HAbs.U).concr) c =
            (((HAbs.B 1).concr : MultiQueue T),
              { chain := (decRC c.chain 0).filter (fun b => b.2.reference_count != 0)
                reference_count := c.reference_count
                count_at_end_of_queue := c.count_at_end_of_queue
                fresh := c.fresh }) := by
          simp [MultiQueue.pop_front, hemp, HAbs.concr, hhead, hptr1, Core.update]
        have hcae : c.count_at_end_of_queue = countEnd (hs.set j (.B 1)) := by
          have := countEnd_set hs j .U (.B 1) hj
          rw [inv.cae_eq]
          simp [HAbs.isEnd] at this
          omega
        obtain ⟨m', hchain', hinv⟩ := inv.rebuild hj (.B 1)
          (by simp [HAbs.valid]; omega) (by simp only [HAbs.decPos]; omega)
          (by simp [HAbs.decPos])
          (decRC c.chain 0)
          (by
            have := chain_dec_one inv hj (.B 1) (by simp [HAbs.decPos])
            simpa [HAbs.decPos] using this)
          c.count_at_end_of_queue hcae
        rw [habs]
        exact ⟨_, m', by rw [hred], hinv⟩
    | B k =>
      simp only [HAbs.valid] at hvalid
      have hmk : m ≤ k := inv.m_le_decPos hj
      have hptr : ptrNext c.chain (some k) =
          if k + 1 < vs.length then some (k + 1) else none := by
        rw [inv.chain_eq]
        exact ptrNext_chainSeg vs _ m k hmk
      by_cases hM : k + 1 = vs.length
      · have hptr0 : ptrNext c.chain (some k) = none := by
          rw [hptr, if_neg (by omega)]
        have habs : popAbs vs.length (.B k) = .C (k + 1) := by
          simp only [popAbs, HAbs.consumed]
          rw [if_pos (by omega), if_pos (by omega)]
          rw [hM]
        have hcon : ((HAbs.C (k + 1)).concr : MultiQueue T)
            = { head := some k, at_end_of_queue := true } := by
          simp [HAbs.concr]
        have hred : MultiQueue.pop_front true ((HAbs.B k).concr) c =
            ({ head := some k, at_end_of_queue := true },
              { chain := c.chain.filter (fun b => b.2.reference_count != 0)
                reference_count := c.reference_count
                count_at_end_of_queue := c.count_at_end_of_queue + 1
                fresh := c.fresh }) := by
          simp [MultiQueue.pop_front, hemp, HAbs.concr, hptr0, Core.update]
        have hcae : c.count_at_end_of_queue + 1 = countEnd (hs.set j (.C (k + 1))) := by
          have := countEnd_set hs j (.B k) (.C (k + 1)) hj
          rw [inv.cae_eq]
          simp [HAbs.isEnd] at this
          omega
        obtain ⟨m', hchain', hinv⟩ := inv.rebuild hj (.C (k + 1))
          (by simp [HAbs.valid]; omega) (by simp only [HAbs.decPos]; omega)
          (by simp [HAbs.decPos])
          c.chain (chain_same inv hj (.C (k + 1)) (by simp [HAbs.decPos]))
          (c.count_at_end_of_queue + 1) hcae
        rw [habs]
        exact ⟨_, m', by rw [hred, hcon], hinv⟩
      · have hptr1 : ptrNext c.chain (some k) = some (k + 1) := by
          rw [hptr, if_pos (by omega)]
        have habs : popAbs vs.length (.B k) = .B (k + 1) := by
          simp only [popAbs, HAbs.consumed]
          rw [if_pos (by omega), if_neg (by omega)]
        have hred : MultiQueue.pop_front true ((HAbs.B k).concr) c =
            (((HAbs.B (k + 1)).concr : MultiQueue T),
              { chain := (decRC c.chain k).filter (fun b => b.2.reference_count != 0)
                reference_count := c.reference_count
                count_at_end_of_queue := c.count_at_end_of_queue
                fresh := c.fresh }) := by
          simp [MultiQueue.pop_front, hemp, HAbs.concr, hptr1, Core.update]
        have hcae : c.count_at_end_of_queue = countEnd (hs.set j (.B (k + 1))) := by
          have := countEnd_set hs j (.B k) (.B (k + 1)) hj
          rw [inv.cae_eq]
          simp [HAbs.isEnd] at this
          omega
        obtain ⟨m', hchain', hinv⟩ := inv.rebuild hj (.B (k + 1))
          (by simp [HAbs.valid]; omega) (by simp only [HAbs.decPos]; omega)
          (by simp [HAbs.decPos])
          (decRC c.chain k)
          (by
            have := chain_dec_one inv hj (.B (k + 1)) (by simp [HAbs.decPos])
            simpa [HAbs.decPos] using this)
          c.count_at_end_of_queue hcae
        rw [habs]
        exact ⟨_, m', by rw [hred], hinv⟩
    | C k =>
      simp only [HAbs.valid] at hvalid
      have hmk : m ≤ k - 1 := inv.m_le_decPos hj
      by_cases hkM : k = vs.length
      · have hptr : ptrNext c.chain (some (k - 1)) = none := by
          rw [inv.chain_eq, ptrNext_chainSeg vs _ m (k - 1) hmk, if_neg (by omega)]
        have habs : popAbs vs.length (.C k) = .C k := by
          simp only [popAbs, HAbs.consumed]
          rw [if_neg (by omega)]
        have hred : MultiQueue.pop_front true ((HAbs.C k).concr) c =
            ((HAbs.C k).concr, c) := by
          simp [MultiQueue.pop_front, hemp, HAbs.concr, hptr]
        refine ⟨c, m, ?_, ?_⟩
        · rw [hred, habs]
        · rw [habs, set_of_getElem? hs j (.C k) hj]
          exact inv
      · have hkM' : k < vs.length := by omega
        have hptr : ptrNext c.chain (some (k - 1)) = some k := by
          rw [inv.chain_eq, ptrNext_chainSeg vs _ m (k - 1) hmk, if_pos (by omega)]
          congr 1
          omega
        have hchain1 : decRC c.chain (k - 1) = chainSeg vs (updDec (rcOf hs) (k - 1)) m := by
          rw [inv.chain_eq, decRC_chainSeg]
        have hptr2 : ptrNext (decRC c.chain (k - 1)) (some k) =
            if k + 1 < vs.length then some (k + 1) else none := by
          rw [hchain1]
          exact ptrNext_chainSeg vs _ m k (by omega)
        by_cases hM : k + 1 = vs.length
        · have hptr2' : ptrNext (decRC c.chain (k - 1)) (some k) = none := by
            rw [hptr2, if_neg (by omega)]
          have habs : popAbs vs.length (.C k) = .C (k + 1) := by
            rw [← hM]
            simp [popAbs, HAbs.consumed]
          have hcon : ((HAbs.C (k + 1)).concr : MultiQueue T)
              = { head := some k, at_end_of_queue := true } := by
            simp [HAbs.concr]
          have hred : MultiQueue.pop_front true ((HAbs.C k).concr) c =
              ({ head := some k, at_end_of_queue := true },
                { chain := (decRC c.chain (k - 1)).filter
                    (fun b => b.2.reference_count != 0)
                  reference_count := c.reference_count
                  count_at_end_of_queue := c.count_at_end_of_queue
                  fresh := c.fresh }) := by
            simp [MultiQueue.pop_front, hemp, HAbs.concr, hptr, hptr2', Core.update]
          have hcae : c.count_at_end_of_queue = countEnd (hs.set j (.C (k + 1))) := by
            have := countEnd_set hs j (.C k) (.C (k + 1)) hj
            rw [inv.cae_eq]
            simp [HAbs.isEnd] at this
            omega
          obtain ⟨m', hchain', hinv⟩ := inv.rebuild hj (.C (k + 1))
            (by simp [HAbs.valid]; omega) (by simp only [HAbs.decPos]; omega)
            (by simp only [HAbs.decPos]; omega)
            (decRC c.chain (k - 1))
            (by
              have := chain_dec_one inv hj (.C (k + 1)) (by simp only [HAbs.decPos]; omega)
              simpa [HAbs.decPos] using this)
            c.count_at_end_of_queue hcae
          rw [habs]
          exact ⟨_, m', by rw [hred, hcon], hinv⟩
        · have hptr2' : ptrNext (decRC c.chain (k - 1)) (some k) = some (k + 1) := by
            rw [hptr2, if_pos (by omega)]
          have habs : popAbs vs.length (.C k) = .B (k + 1) := by
            simp only [popAbs, HAbs.consumed]
            rw [if_pos (by omega), if_neg (by omega)]
          have hdecdec : decRC (decRC c.chain (k - 1)) k =
              chainSeg vs (rcOf (hs.set j (.B (k + 1)))) m := by
            have := chain_dec_two inv hj (.B (k + 1)) (by simp only [HAbs.decPos]; omega)
            simp only [HAbs.decPos] at this
            rw [show k - 1 + 1 = k by omega] at this
            exact this
          have hred : MultiQueue.pop_front true ((HAbs.C k).concr) c =
              (((HAbs.B (k + 1)).concr : MultiQueue T),
                { chain := (decRC (decRC c.chain (k - 1)) k).filter
                    (fun b => b.2.reference_count != 0)
                  reference_count := c.reference_count
                  count_at_end_of_queue := c.count_at_end_of_queue - 1
                  fresh := c.fresh }) := by
            simp [MultiQueue.pop_front, hemp, HAbs.concr, hptr, hptr2', Core.update]
          have hcae : c.count_at_end_of_queue - 1 = countEnd (hs.set j (.B (k + 1))) := by
            have := countEnd_set hs j (.C k) (.B (k + 1)) hj
            rw [inv.cae_eq]
            simp [HAbs.isEnd] at this
            omega
          obtain ⟨m', hchain', hinv⟩ := inv.rebuild hj (.B (k + 1))
            (by simp [HAbs.valid]; omega) (by simp only [HAbs.decPos]; omega)
            (by simp only [HAbs.decPos]; omega)
            (decRC (decRC c.chain (k - 1)) k) hdecdec
            (c.count_at_end_of_queue - 1) hcae
          rw [habs]
          exact ⟨_, m', by rw [hred], hinv⟩

theorem valid_mono (h : HAbs) (M M' : Nat) (hv : h.valid M) (hle : M ≤ M') : h.valid M' := by
  cases h with
  | U => trivial
  | B k => simp only [HAbs.valid] at *; omega
  | C k => simp only [HAbs.valid] at *; omega

theorem segOf_append_one (g : Nat → Nat) (l : List T) (v : T) :
    ∀ i, segOf g i (l ++ [v]) = segOf g i l ++ [(i + l.length, { object := v, reference_count := g (i + l.length) })] := by
  induction l with
  | nil => intro i; simp [segOf]
  | cons x rest ih =>
    intro i
    show (i, { object := x, reference_count := g i }) :: segOf g (i + 1) (rest ++ [v]) =
      ((i, { object := x, reference_count := g i }) :: segOf g (i + 1) rest)
        ++ [(i + (rest.length + 1),
              { object := v, reference_count := g (i + (rest.length + 1)) })]
    rw [List.cons_append, ih (i + 1),
      show i + (rest.length + 1) = i + 1 + rest.length from by omega]

theorem chainSeg_snoc (vs : List T) (g : Nat → Nat) (m : Nat) (v : T) (hm : m ≤ vs.length) :
    chainSeg (vs ++ [v]) g m =
      chainSeg vs g m ++ [(vs.length, { object := v, reference_count := g vs.length })] := by
  unfold chainSeg
  rw [List.drop_append_of_le_length hm, segOf_append_one]
  rw [List.length_drop, show m + (vs.length - m) = vs.length by omega]

/-- Specification of `MultiQueue::push_back` on a reachable state: the push
succeeds, the value list grows, and only the pushing handle (when it had a
null head) re-attaches; every handle's consumed count is unchanged. -/
theorem push_spec {vs : List T} {hs : List HAbs} {m : Nat} {c : Core T}
    (inv : CoreInv vs hs m c) {j : Nat} {h : HAbs} (hj : hs[j]? = some h) (v : T) :
    ∃ c', MultiQueue.push_back true (h.concr) c v =
        (.ok (), ((pushAbs h).concr : MultiQueue T), c') ∧
      CoreInv (vs ++ [v]) (hs.set j (pushAbs h)) m c' := by
  have hvalid := inv.valid h (List.getElem?_mem hj)
  have hdpush : (pushAbs h).decPos = h.decPos := by
    cases h <;> rfl
  have hepush : (pushAbs h).isEnd = h.isEnd := by
    cases h <;> rfl
  have hrc_pt : ∀ i, rcOf (hs.set j (pushAbs h)) i = rcOf hs i := by
    intro i
    have := rcOf_set hs j h (pushAbs h) hj i
    rw [hdpush] at this
    omega
  have hrc_len : rcOf (hs.set j (pushAbs h)) vs.length = hs.length := by
    rw [hrc_pt]
    apply rcOf_eq_length
    intro x hx
    exact le_trans (decPos_le_consumed x) (consumed_le_of_valid x vs.length (inv.valid x hx))
  have hchain : c.chain ++ [(c.fresh, { object := v, reference_count := c.reference_count })] =
      chainSeg (vs ++ [v]) (rcOf (hs.set j (pushAbs h))) m := by
    rw [chainSeg_snoc _ _ m v inv.m_le, inv.chain_eq, inv.fresh_eq, inv.rc_eq, hrc_len]
    congr 1
    apply chainSeg_congr
    intro x _ _
    exact (hrc_pt x).symm
  have hlenpos : 0 < hs.length := List.length_pos.mpr inv.hs_ne
  have hinv : CoreInv (vs ++ [v]) (hs.set j (pushAbs h)) m
      { chain := c.chain ++ [(c.fresh, { object := v, reference_count := c.reference_count })]
        reference_count := c.reference_count
        count_at_end_of_queue := c.count_at_end_of_queue
        fresh := c.fresh + 1 } := by
    refine ⟨hchain, ?_, ?_, ?_, ?_, ?_, ?_, ?_, ?_⟩
    · show c.reference_count = (hs.set j (pushAbs h)).length
      rw [List.length_set]
      exact inv.rc_eq
    · show c.count_at_end_of_queue = countEnd (hs.set j (pushAbs h))
      have := countEnd_set hs j h (pushAbs h) hj
      rw [hepush] at this
      rw [inv.cae_eq]
      omega
    · show c.fresh + 1 = (vs ++ [v]).length
      rw [inv.fresh_eq]
      simp
    · intro hnil
      exact inv.hs_ne (by cases hs <;> simp_all)
    · refine valid_set hs (vs ++ [v]).length j (pushAbs h)
        (fun x hx => valid_mono x vs.length _ (inv.valid x hx) (by simp)) ?_
      cases h with
      | U => simp [pushAbs, HAbs.valid]
      | B k =>
        have := hvalid
        simp only [HAbs.valid] at this
        simp [pushAbs, HAbs.valid]
        omega
      | C k =>
        have := hvalid
        simp only [HAbs.valid] at this
        simp [pushAbs, HAbs.valid]
        omega
    · have := inv.m_le
      simp
      omega
    · intro i hi
      rw [hrc_pt]
      exact inv.dead_below i hi
    · intro i hi hi2
      simp only [List.length_append, List.length_cons, List.length_nil] at hi2
      by_cases hilen : i < vs.length
      · rw [hrc_pt]
        exact inv.alive_from i hi hilen
      · have : i = vs.length := by omega
        subst this
        rw [hrc_len]
        omega
  cases h with
  | U =>
    have hm0 : m = 0 := inv.m_eq_zero_of_U (List.getElem?_mem hj)
    refine ⟨_, ?_, hinv⟩
    simp only [MultiQueue.push_back, Core.push_back, HAbs.concr, pushAbs,
      Option.isNone_none, if_true]
    rw [headPtr_chain_chainSeg _ (vs ++ [v]) _ m hinv.chain_eq,
      if_pos (show m < (vs ++ [v]).length by have := inv.m_le; simp; omega), hm0]
  | B k =>
    refine ⟨_, ?_, hinv⟩
    simp [MultiQueue.push_back, Core.push_back, HAbs.concr, pushAbs]
  | C k =>
    refine ⟨_, ?_, hinv⟩
    simp [MultiQueue.push_back, Core.push_back, HAbs.concr, pushAbs]

/-- Specification of `MultiQueue::fork` on a reachable state (for a parent
handle that has attached to the chain, or an empty chain): the fork
succeeds, the new handle shares the parent's descriptor, the live-handle
count grows by one, and exactly the blocks from the parent's claim
position onward gain a reference.  A parent with a null head over a
non-empty chain is excluded: there the source skips the reference-count
walk entirely (see the corrected claim C8). -/
theorem fork_spec {vs : List T} {hs : List HAbs} {m : Nat} {c : Core T}
    (inv : CoreInv vs hs m c) {j : Nat} {h : HAbs} (hj : hs[j]? = some h)
    (hcase : h ≠ .U ∨ vs = []) :
    ∃ c', MultiQueue.fork true (h.concr) c = (.ok (h.concr : MultiQueue T), c') ∧
      CoreInv vs (hs ++ [h]) m c' ∧
      c'.reference_count = c.reference_count + 1 ∧
      c'.chain = chainSeg vs (updInc (rcOf hs) h.decPos) m := by
  have hvalid := inv.valid h (List.getElem?_mem hj)
  have hrc_pt : ∀ x, rcOf (hs ++ [h]) x = updInc (rcOf hs) h.decPos x := by
    intro x
    rw [rcOf_append, rcOf_single]
    simp only [updInc]
    by_cases hx : h.decPos ≤ x <;> simp [hx]
  have hchain : incRCFrom c.chain (h.concr : MultiQueue T).head =
      chainSeg vs (rcOf (hs ++ [h])) m := by
    rcases hcase with hne | hnil
    · rw [concr_head_of_ne_U h hne, inv.chain_eq,
        incRCFrom_chainSeg vs _ m h.decPos (inv.m_le_decPos hj)]
      apply chainSeg_congr
      intro x _ _
      exact (hrc_pt x).symm
    · subst hnil
      have hc : c.chain = [] := by
        rw [inv.chain_eq]
        exact chainSeg_nil _ _ _ (by simp)
      rw [hc, chainSeg_nil _ _ _ (by simp)]
      cases (h.concr : MultiQueue T).head <;> rfl
  have hinv : CoreInv vs (hs ++ [h]) m
      { chain := incRCFrom c.chain (h.concr : MultiQueue T).head
        reference_count := c.reference_count + 1
        count_at_end_of_queue :=
          c.count_at_end_of_queue + (if h.isEnd then 1 else 0)
        fresh := c.fresh } := by
    refine ⟨hchain, ?_, ?_, inv.fresh_eq, by simp, ?_, inv.m_le, ?_, ?_⟩
    · show c.reference_count + 1 = (hs ++ [h]).length
      rw [inv.rc_eq]
      simp
    · show c.count_at_end_of_queue + (if h.isEnd then 1 else 0) = countEnd (hs ++ [h])
      rw [inv.cae_eq, countEnd_append]
      simp only [countEnd, List.countP_cons, List.countP_nil]
      by_cases he : h.isEnd <;> simp [he]
    · intro x hx
      rcases List.mem_append.mp hx with hx1 | hx1
      · exact inv.valid x hx1
      · simp only [List.mem_singleton] at hx1
        subst hx1
        exact hvalid
    · intro i hi
      rw [rcOf_append, rcOf_single, inv.dead_below i hi,
        if_neg (show ¬ h.decPos ≤ i by have := inv.m_le_decPos hj; omega)]
    · intro i hi hi2
      rw [rcOf_append]
      have := inv.alive_from i hi hi2
      omega
  refine ⟨_, ?_, hinv, rfl, ?_⟩
  · cases he : h.isEnd with
    | true =>
      have hae : (h.concr : MultiQueue T).at_end_of_queue = true := by
        rw [concr_at_end, he]
      simp [MultiQueue.fork, hae]
      rw [← hae]
    | false =>
      have hae : (h.concr : MultiQueue T).at_end_of_queue = false := by
        rw [concr_at_end, he]
      simp [MultiQueue.fork, hae]
      rw [← hae]
  · rw [hinv.chain_eq]
    apply chainSeg_congr
    intro x _ _
    exact hrc_pt x

theorem consumed_popAbs (M : Nat) (h : HAbs) (hc : h.consumed < M) :
    (popAbs M h).consumed = h.consumed + 1 := by
  simp only [popAbs]
  rw [if_pos hc]
  by_cases h1 : h.consumed + 1 = M
  · rw [if_pos h1]
    show M = h.consumed + 1
    omega
  · rw [if_neg h1]
    rfl

theorem drainAbs_of_consumed_eq (h : HAbs) (M : Nat) (hv : h.valid M)
    (hc : h.consumed = M) : drainAbs M h = h := by
  by_cases hM : M = 0
  · simp [drainAbs, hM]
  · cases h with
    | U => simp [HAbs.consumed] at hc; omega
    | B k =>
      simp only [HAbs.valid] at hv
      simp [HAbs.consumed] at hc
      omega
    | C k =>
      simp [HAbs.consumed] at hc
      simp [drainAbs, hM, hc]

theorem drainAbs_popAbs (M : Nat) (h : HAbs) (hM : M ≠ 0) :
    drainAbs M (popAbs M h) = drainAbs M h := by
  simp [drainAbs, hM]

/-- The `while size() > 0` loop of `pop_all`, run with exactly enough fuel:
the handle drains every pending value. -/
theorem popLoop_spec : ∀ (n : Nat) {vs : List T} {hs : List HAbs} {m : Nat} {c : Core T}
    {j : Nat} {h : HAbs}, CoreInv vs hs m c → hs[j]? = some h →
    n = vs.length - h.consumed →
    ∃ c' m', MultiQueue.popLoop true n (h.concr, c) =
        (((drainAbs vs.length h).concr : MultiQueue T), c') ∧
      CoreInv vs (hs.set j (drainAbs vs.length h)) m' c' := by
  intro n
  induction n with
  | zero =>
    intro vs hs m c j h inv hj hn
    have hvalid := inv.valid h (List.getElem?_mem hj)
    have hcons : h.consumed = vs.length := by
      have := consumed_le_of_valid h vs.length hvalid
      omega
    have hdr : drainAbs vs.length h = h := drainAbs_of_consumed_eq h vs.length hvalid hcons
    refine ⟨c, m, ?_, ?_⟩
    · rw [hdr]
      rfl
    · rw [hdr, set_of_getElem? hs j h hj]
      exact inv
  | succ n ih =>
    intro vs hs m c j h inv hj hn
    have hvalid := inv.valid h (List.getElem?_mem hj)
    have hcons : h.consumed < vs.length := by
      have := consumed_le_of_valid h vs.length hvalid
      omega
    have hM : vs.length ≠ 0 := by omega
    have hsize : MultiQueue.size true (h.concr) c = vs.length - h.consumed :=
      size_spec inv hj
    obtain ⟨c1, m1, hpop, hinv1⟩ := pop_spec inv hj
    have hj1 : (hs.set j (popAbs vs.length h))[j]? = some (popAbs vs.length h) :=
      getElem?_set_self' (lt_length_of_getElem? hj) _
    obtain ⟨c2, m2, hloop, hinv2⟩ := ih hinv1 hj1
      (by rw [consumed_popAbs vs.length h hcons]; omega)
    refine ⟨c2, m2, ?_, ?_⟩
    · show MultiQueue.popLoop true (n + 1) (h.concr, c) = _
      rw [MultiQueue.popLoop, hsize, if_pos (by omega), hpop, hloop,
        drainAbs_popAbs vs.length h hM]
    · rw [List.set_set] at hinv2
      rw [← drainAbs_popAbs vs.length h hM]
      exact hinv2

/-- Specification of `MultiQueue::pop_all` on a reachable state. -/
theorem popAll_spec {vs : List T} {hs : List HAbs} {m : Nat} {c : Core T}
    (inv : CoreInv vs hs m c) {j : Nat} {h : HAbs} (hj : hs[j]? = some h) :
    ∃ c' m', MultiQueue.pop_all true (h.concr) c =
        (((drainAbs vs.length h).concr : MultiQueue T), c') ∧
      CoreInv vs (hs.set j (drainAbs vs.length h)) m' c' := by
  obtain ⟨c', m', hloop, hinv⟩ := popLoop_spec (vs.length - h.consumed) inv hj rfl
  refine ⟨c', m', ?_, hinv⟩
  rw [MultiQueue.pop_all, size_spec inv hj]
  exact hloop

theorem iterCollect_none (c : Core T) : ∀ n, iterCollect c n { head := none } = [] := by
  intro n
  cases n <;> rfl

/-- The iterator walk over a reachable chain, starting at block `a`: it
yields the stored values from `a` to the tail. -/
theorem iterCollect_chainSeg {vs : List T} {hs : List HAbs} {m : Nat} {c : Core T}
    (inv : CoreInv vs hs m c) :
    ∀ (fuel a : Nat), m ≤ a → vs.length - a ≤ fuel →
      iterCollect c fuel { head := some a } = vs.drop a := by
  intro fuel
  induction fuel with
  | zero =>
    intro a hma hfa
    rw [List.drop_eq_nil_of_le (by omega)]
    rfl
  | succ n ih =>
    intro a hma hfa
    by_cases ha : a < vs.length
    · have hget : getBlock c.chain (some a) =
          some { object := vs.get ⟨a, ha⟩, reference_count := rcOf hs a } := by
        rw [inv.chain_eq]
        exact getBlock_chainSeg vs _ m a hma ha
      have hptr : ptrNext c.chain (some a) =
          if a + 1 < vs.length then some (a + 1) else none := by
        rw [inv.chain_eq]
        exact ptrNext_chainSeg vs _ m a hma
      rw [iterCollect]
      simp only [MultiQueueIterator.next, hget, hptr, Option.map_some']
      by_cases ha1 : a + 1 < vs.length
      · rw [if_pos ha1, ih (a + 1) (by omega) (by omega),
          List.drop_eq_getElem_cons ha]
        simp
      · rw [if_neg ha1, iterCollect_none, List.drop_eq_getElem_cons ha,
          List.drop_eq_nil_of_le (by omega)]
        simp
    · have hget : getBlock c.chain (some a) = none := by
        rw [inv.chain_eq]
        exact getBlock_chainSeg_none vs _ m a hma (by omega)
      rw [iterCollect]
      simp only [MultiQueueIterator.next, hget, Option.map_none']
      rw [List.drop_eq_nil_of_le (by omega)]

/-! ## Drain traces over a whole system -/

theorem consumed_stepAbs (M : Nat) (h : HAbs) (hv : h.valid M) :
    (stepAbs M h).consumed = min (h.consumed + 1) M := by
  have hle := consumed_le_of_valid h M hv
  by_cases hc : h.consumed < M
  · have hf : (frontAbs M h).consumed = h.consumed := by
      simp only [frontAbs]
      rw [if_pos hc]
      rfl
    have hfc : (frontAbs M h).consumed < M := by rw [hf]; exact hc
    rw [stepAbs, consumed_popAbs M _ hfc, hf]
    omega
  · have hcM : h.consumed = M := by omega
    have hf : frontAbs M h = h := by
      simp only [frontAbs]
      rw [if_neg hc]
    have hp : popAbs M h = h := by
      simp only [popAbs]
      rw [if_neg hc]
    rw [stepAbs, hf, hp, hcM]
    omega

theorem valid_stepAbs (M : Nat) (h : HAbs) (hv : h.valid M) :
    (stepAbs M h).valid M := by
  by_cases hc : h.consumed < M
  · have hf : frontAbs M h = .B h.consumed := by
      simp only [frontAbs]
      rw [if_pos hc]
    rw [stepAbs, hf]
    simp only [popAbs]
    rw [show (HAbs.B h.consumed).consumed = h.consumed from rfl, if_pos hc]
    by_cases h1 : h.consumed + 1 = M
    · rw [if_pos h1]
      simp [HAbs.valid]
      omega
    · rw [if_neg h1]
      simp [HAbs.valid]
      omega
  · have hf : frontAbs M h = h := by
      simp only [frontAbs]
      rw [if_neg hc]
    have hp : popAbs M h = h := by
      simp only [popAbs]
      rw [if_neg hc]
    rw [stepAbs, hf, hp]
    exact hv

theorem obsOf_cons_self {T : Type} (j : Nat) (v : Option T) (l : List (Nat × Option T)) :
    obsOf j ((j, v) :: l) = v :: obsOf j l := by
  simp [obsOf]

theorem obsOf_cons_ne {T : Type} (i j : Nat) (v : Option T) (l : List (Nat × Option T))
    (hij : i ≠ j) : obsOf i ((j, v) :: l) = obsOf i l := by
  simp [obsOf, Ne.symm hij]

theorem getElem?_min (vs : List T) (b : Nat) : vs[min b vs.length]? = vs[b]? := by
  by_cases hb : b < vs.length
  · rw [min_eq_left (by omega)]
  · rw [min_eq_right (by omega), List.getElem?_eq_none (by omega),
      List.getElem?_eq_none (by omega)]

/-- One `front` + `pop_front` round on the system: the handle observes its
next pending value and consumes it. -/
theorem sys_step_spec {vs : List T} {hs : List HAbs} {m : Nat} {s : Sys T}
    (inv : SysInv vs hs m s) {j : Nat} {h : HAbs} (hj : hs[j]? = some h) :
    ∃ s' m', s.frontPop j = ((vs.drop h.consumed).head?, s') ∧
      SysInv vs (hs.set j (stepAbs vs.length h)) m' s' := by
  have hjl : j < hs.length := lt_length_of_getElem? hj
  have hhandle : s.handles[j]? = some (h.concr) := by
    rw [inv.handles_eq, List.getElem?_map, hj]
    rfl
  obtain ⟨c1, m1, hfront, hinv1⟩ := front_spec inv.core_inv hj
  have hj1 : (hs.set j (frontAbs vs.length h))[j]? = some (frontAbs vs.length h) :=
    getElem?_set_self' hjl _
  obtain ⟨c2, m2, hpop, hinv2⟩ := pop_spec hinv1 hj1
  rw [List.set_set] at hinv2
  refine ⟨{ core := c2,
            handles := s.handles.set j ((popAbs vs.length (frontAbs vs.length h)).concr) },
    m2, ?_, ?_, ?_⟩
  · rw [Sys.frontPop, hhandle]
    simp only [hfront, hpop]
  · exact hinv2
  · rw [inv.handles_eq, List.map_set]
    rfl

/-- Running a drain trace: each handle observes exactly the values from
its own position onward, in order, independent of the interleaving. -/
theorem run_obs : ∀ (tr : List Nat) {vs : List T} {hs : List HAbs} {m : Nat} {s : Sys T},
    SysInv vs hs m s → (∀ x ∈ tr, x < hs.length) →
    ∀ (base : Nat → Nat),
    (∀ i h, hs[i]? = some h → h.consumed = min (base i) vs.length) →
    (∀ i, obsOf i (runFrontPops s tr).2 =
      (List.range' (base i) (tr.count i)).map (fun t => vs[t]?)) ∧
    ∃ hs' m', SysInv vs hs' m' (runFrontPops s tr).1 ∧ hs'.length = hs.length ∧
      (∀ i h', hs'[i]? = some h' →
        h'.consumed = min (base i + tr.count i) vs.length) := by
  intro tr
  induction tr with
  | nil =>
    intro vs hs m s inv _ base hbase
    refine ⟨?_, hs, m, inv, rfl, ?_⟩
    · intro i
      simp [runFrontPops, obsOf]
    · intro i h' hi
      have := hbase i h' hi
      simpa using this
  | cons j tr ih =>
    intro vs hs m s inv htr base hbase
    have hjl : j < hs.length := htr j (by simp)
    obtain ⟨h, hj⟩ : ∃ h, hs[j]? = some h := by
      rw [List.getElem?_eq_getElem hjl]
      exact ⟨_, rfl⟩
    obtain ⟨s1, m1, hstep, hinv1⟩ := sys_step_spec inv hj
    have hvalid := inv.core_inv.valid h (List.getElem?_mem hj)
    have hbase1 : ∀ i h', (hs.set j (stepAbs vs.length h))[i]? = some h' →
        h'.consumed = min ((fun i => if i = j then base i + 1 else base i) i) vs.length := by
      intro i h' hi
      by_cases hij : i = j
      · subst hij
        rw [getElem?_set_self' hjl _] at hi
        injection hi with hi
        subst hi
        rw [consumed_stepAbs vs.length h hvalid, hbase i h hj]
        simp only [eq_self_iff_true, if_true]
        omega
      · rw [List.getElem?_set_ne (Ne.symm hij)] at hi
        simp only [if_neg hij]
        exact hbase i h' hi
    have htr1 : ∀ x ∈ tr, x < (hs.set j (stepAbs vs.length h)).length := by
      intro x hx
      rw [List.length_set]
      exact htr x (by simp [hx])
    obtain ⟨hobs, hs', m', hinv', hlen', hcons'⟩ := ih hinv1 htr1 _ hbase1
    have hrun : runFrontPops s (j :: tr) =
        ((runFrontPops s1 tr).1, (j, (vs.drop h.consumed).head?) :: (runFrontPops s1 tr).2) := by
      rw [runFrontPops, hstep]
    refine ⟨?_, hs', m', by rw [hrun]; exact hinv', by rw [hlen', List.length_set], ?_⟩
    · intro i
      rw [hrun]
      by_cases hij : i = j
      · subst hij
        rw [obsOf_cons_self, hobs i]
        simp only [eq_self_iff_true, if_true]
        rw [List.count_cons_self, List.range'_succ, List.map_cons]
        congr 1
        rw [hbase i h hj, List.head?_drop]
        exact getElem?_min vs (base i)
      · rw [obsOf_cons_ne i j _ _ hij, hobs i]
        simp only [if_neg hij]
        rw [List.count_cons_of_ne hij]
    · intro i h' hi
      have := hcons' i h' hi
      by_cases hij : i = j
      · subst hij
        simp only [eq_self_iff_true, if_true] at this
        rw [List.count_cons_self]
        omega
      · simp only [if_neg hij] at this
        rw [List.count_cons_of_ne hij]
        exact this

/-! ## Building systems: fresh queue, forks before pushes, pushes -/

theorem mkSys_inv : SysInv ([] : List T) [.U] 0 mkSys := by
  refine ⟨⟨?_, rfl, ?_, rfl, by simp, ?_, by simp, ?_, ?_⟩, rfl⟩
  · rw [chainSeg_nil _ _ _ (by simp)]
    rfl
  · rfl
  · intro x hx
    simp only [List.mem_singleton] at hx
    subst hx
    trivial
  · intro i hi
    omega
  · intro i _ hi
    simp at hi

theorem forkN_inv : ∀ (N : Nat) {s : Sys T} {hs : List HAbs},
    SysInv ([] : List T) hs 0 s → hs[0]? = some .U →
    SysInv ([] : List T) (hs ++ List.replicate N .U) 0 (forkN s N) := by
  intro N
  induction N with
  | zero =>
    intro s hs inv _
    simpa using inv
  | succ n ih =>
    intro s hs inv h0
    have hhandle : s.handles[0]? = some ((HAbs.U).concr) := by
      rw [inv.handles_eq, List.getElem?_map, h0]
      rfl
    obtain ⟨c', hfork, hinv', _, _⟩ := fork_spec inv.core_inv h0 (Or.inr rfl)
    have hred : forkN s (n + 1) =
        forkN { core := c', handles := s.handles ++ [(HAbs.U).concr] } n := by
      rw [forkN, hhandle]
      simp only [hfork]
    rw [hred]
    have hinvS : SysInv ([] : List T) (hs ++ [.U]) 0
        { core := c', handles := s.handles ++ [(HAbs.U).concr] } := by
      refine ⟨hinv', ?_⟩
      rw [inv.handles_eq, List.map_append]
      rfl
    have h0' : (hs ++ [HAbs.U])[0]? = some .U := by
      rw [List.getElem?_append, if_pos (lt_length_of_getElem? h0)]
      exact h0
    have := ih hinvS h0'
    rw [List.append_assoc] at this
    simpa [List.replicate_succ] using this

theorem pushAbs_consumed (h : HAbs) : (pushAbs h).consumed = h.consumed := by
  cases h <;> rfl

theorem pushAbs_decPos (h : HAbs) : (pushAbs h).decPos = h.decPos := by
  cases h <;> rfl

theorem pushAbs_isEnd (h : HAbs) : (pushAbs h).isEnd = h.isEnd := by
  cases h <;> rfl

theorem pushAll_spec : ∀ (ws : List T) {vs : List T} {hs : List HAbs} {m : Nat}
    {s : Sys T} {j : Nat} {h : HAbs}, SysInv vs hs m s → hs[j]? = some h →
    ∃ h' m', SysInv (vs ++ ws) (hs.set j h') m' (pushAll s j ws) ∧
      h'.consumed = h.consumed ∧ h'.decPos = h.decPos ∧ h'.isEnd = h.isEnd := by
  intro ws
  induction ws with
  | nil =>
    intro vs hs m s j h inv hj
    refine ⟨h, m, ?_, rfl, rfl, rfl⟩
    rw [set_of_getElem? hs j h hj]
    simpa [pushAll] using inv
  | cons w ws ih =>
    intro vs hs m s j h inv hj
    have hhandle : s.handles[j]? = some (h.concr) := by
      rw [inv.handles_eq, List.getElem?_map, hj]
      rfl
    obtain ⟨c1, hpush, hinv1⟩ := push_spec inv.core_inv hj w
    have hred : pushAll s j (w :: ws) =
        pushAll { core := c1, handles := s.handles.set j ((pushAbs h).concr) } j ws := by
      rw [pushAll, hhandle]
      simp only [hpush]
    have hinvS : SysInv (vs ++ [w]) (hs.set j (pushAbs h)) m
        { core := c1, handles := s.handles.set j ((pushAbs h).concr) } := by
      refine ⟨hinv1, ?_⟩
      rw [inv.handles_eq, List.map_set]
    have hj1 : (hs.set j (pushAbs h))[j]? = some (pushAbs h) :=
      getElem?_set_self' (lt_length_of_getElem? hj) _
    obtain ⟨h', m', hinv', hc, hd, he⟩ := ih hinvS hj1
    rw [List.set_set] at hinv'
    rw [List.append_assoc] at hinv'
    refine ⟨h', m', ?_, ?_, ?_, ?_⟩
    · rw [hred]
      simpa using hinv'
    · rw [hc, pushAbs_consumed]
    · rw [hd, pushAbs_decPos]
    · rw [he, pushAbs_isEnd]

theorem range'_map_getElem? (vs : List T) : ∀ (n b : Nat),
    (List.range' b n).map (fun t => vs[t]?) = expectedObs vs b n := by
  intro n
  induction n with
  | zero =>
    intro b
    simp only [List.range'_zero, List.map_nil, expectedObs, List.take_zero, List.map_nil,
      List.nil_append]
    rw [show b + 0 - max b vs.length = 0 by omega]
    rfl
  | succ n ih =>
    intro b
    rw [List.range'_succ, List.map_cons, ih (b + 1)]
    by_cases hb : b < vs.length
    · rw [List.getElem?_eq_getElem hb]
      simp only [expectedObs]
      rw [List.drop_eq_getElem_cons hb, List.take_succ_cons, List.map_cons]
      rw [show b + (n + 1) - max b vs.length = b + 1 + n - max (b + 1) vs.length by
        rw [max_eq_right (by omega), max_eq_right (by omega)]
        omega]
      rfl
    · rw [List.getElem?_eq_none (by omega)]
      simp only [expectedObs]
      rw [List.drop_eq_nil_of_le (by omega), List.drop_eq_nil_of_le (by omega)]
      simp only [List.take_nil, List.map_nil, List.nil_append]
      rw [show b + (n + 1) - max b vs.length = n + 1 by rw [max_eq_left (by omega)]; omega,
        show b + 1 + n - max (b + 1) vs.length = n by rw [max_eq_left (by omega)]; omega]
      rfl

theorem expectedObs_full (vs : List T) : expectedObs vs 0 vs.length = vs.map some := by
  simp only [expectedObs]
  rw [List.drop_zero, List.take_length, show 0 + vs.length - max 0 vs.length = 0 by omega]
  simp

/-- Claim C1.  For every sequence of values pushed through a single,
unforked `MultiQueue` handle, `vs.length` rounds of `front()` +
`pop_front()` observe exactly those values in push order; afterwards
`empty()` returns `true` and `front()` returns `none`. -/
theorem C1_fifo_single_handle (T : Type) (vs : List T) :
    obsOf 0 (runFrontPops (pushAll (mkSys : Sys T) 0 vs)
        (List.replicate vs.length 0)).2 = vs.map some ∧
    ∀ q, (runFrontPops (pushAll (mkSys : Sys T) 0 vs)
        (List.replicate vs.length 0)).1.handles[0]? = some q →
      MultiQueue.empty true q (runFrontPops (pushAll (mkSys : Sys T) 0 vs)
          (List.replicate vs.length 0)).1.core = true ∧
      (MultiQueue.front true q (runFrontPops (pushAll (mkSys : Sys T) 0 vs)
          (List.replicate vs.length 0)).1.core).1 = none := by
  obtain ⟨h', m0, hinvS, hcons, _, _⟩ :=
    pushAll_spec vs (mkSys_inv (T := T)) (show [HAbs.U][0]? = some .U from rfl)
  have hset : ([HAbs.U].set 0 h') = [h'] := rfl
  rw [hset] at hinvS
  have hvsnil : (([] : List T) ++ vs) = vs := by simp
  rw [hvsnil] at hinvS
  have htr : ∀ x ∈ List.replicate vs.length 0, x < ([h'] : List HAbs).length := by
    intro x hx
    rw [List.eq_of_mem_replicate hx]
    simp
  obtain ⟨hobs, hs', m', hinv', hlen', hcons'⟩ :=
    run_obs (List.replicate vs.length 0) hinvS htr (fun _ => 0)
      (by
        intro i hh hi
        cases i with
        | zero =>
          simp only [List.getElem?_cons_zero, Option.some.injEq] at hi
          subst hi
          rw [hcons]
          simp [HAbs.consumed]
        | succ n => simp at hi)
  constructor
  · rw [hobs 0, List.count_replicate_self, range'_map_getElem?, expectedObs_full]
  · intro q hq
    have hlen1 : hs'.length = 1 := by simpa using hlen'
    obtain ⟨h2, hh2⟩ : ∃ h2, hs'[0]? = some h2 := by
      rw [List.getElem?_eq_getElem (by omega)]
      exact ⟨_, rfl⟩
    have hq2 : q = h2.concr := by
      rw [hinv'.handles_eq, List.getElem?_map, hh2] at hq
      simpa using hq.symm
    have hc2 : h2.consumed = vs.length := by
      have := hcons' 0 h2 hh2
      rw [List.count_replicate_self] at this
      omega
    subst hq2
    constructor
    · rw [empty_spec hinv'.core_inv hh2, hc2]
      simp
    · obtain ⟨c', m'', hfront, _⟩ := front_spec hinv'.core_inv hh2
      rw [hfront]
      simp only [hc2]
      rw [List.drop_eq_nil_of_le (by omega)]
      rfl

/-- Claim C2.  For N fork handles all created before any pushes and `vs`
pushed through any one handle `p`, every handle of the system drains the
same values `vs` in the same order, whatever the interleaving `tr` of
drain rounds: handle `i` observes exactly the first `count i tr` entries
of `vs` (then `none`s once drained). -/
theorem C2_forks_drain_same_values (T : Type) (N : Nat) (vs : List T) (p : Nat)
    (hp : p < N + 1) (tr : List Nat) (htr : ∀ x ∈ tr, x < N + 1) :
    ∀ i, obsOf i (runFrontPops (pushAll (forkN (mkSys : Sys T) N) p vs) tr).2
      = expectedObs vs 0 (tr.count i) := by
  have hinit := forkN_inv N (mkSys_inv (T := T)) (show [HAbs.U][0]? = some .U from rfl)
  have hrepl : ([HAbs.U] ++ List.replicate N HAbs.U) = List.replicate (N + 1) HAbs.U := by
    rw [List.replicate_succ]
    rfl
  rw [hrepl] at hinit
  have hpU : (List.replicate (N + 1) HAbs.U)[p]? = some .U := by
    rw [List.getElem?_eq_getElem (by simpa using hp)]
    simp
  obtain ⟨h', m0, hinvS, hcons, _, _⟩ := pushAll_spec vs hinit hpU
  have hvsnil : (([] : List T) ++ vs) = vs := by simp
  rw [hvsnil] at hinvS
  have htr1 : ∀ x ∈ tr, x < ((List.replicate (N + 1) HAbs.U).set p h').length := by
    intro x hx
    simpa using htr x hx
  obtain ⟨hobs, _, _, _, _, _⟩ :=
    run_obs tr hinvS htr1 (fun _ => 0)
      (by
        intro i hh hi
        rcases List.mem_or_eq_of_mem_set (List.getElem?_mem hi) with hmem | heq
        · rw [List.eq_of_mem_replicate hmem]
          simp [HAbs.consumed]
        · subst heq
          rw [hcons]
          simp [HAbs.consumed])
  intro i
  rw [hobs i, range'_map_getElem?]

/-! ## The broadcast channel over the queue invariant -/

theorem chan_receiver_queue {vs : List T} {rs : List HAbs} {m L : Nat} {s : CSys T}
    (inv : ChanInv vs rs m L s) {j : Nat} {h : HAbs} (hj : rs[j]? = some h)
    {r : Receiver T} (hr : s.recvs[j]? = some r) : r.queue = h.concr := by
  have h1 : (s.recvs.map (fun x => x.queue))[j]? = some r.queue := by
    rw [List.getElem?_map, hr]
    rfl
  rw [inv.recvs_eq, List.getElem?_map, hj] at h1
  simpa using h1.symm

theorem cons_getElem?_succ (a : HAbs) (rs : List HAbs) (j : Nat) :
    (a :: rs)[j + 1]? = rs[j]? := List.getElem?_cons_succ

/-- One `recv` poll by receiver `j` when it still has pending values: the
poll resolves with the next pending value and the receiver's fork
advances by one. -/
theorem recv_poll_value {vs : List T} {rs : List HAbs} {m L : Nat} {s : CSys T}
    (inv : ChanInv vs rs m L s) {j : Nat} {h : HAbs} (hj : rs[j]? = some h)
    {r : Receiver T} (hr : s.recvs[j]? = some r) (hc : h.consumed < vs.length) :
    ∃ ch' core' m', Receiver.recv_poll true r s.ch s.core =
      (.Ready (vs[h.consumed]?), { id := r.id, queue := (stepAbs vs.length h).concr },
        ch', core') ∧
      ch'.queue = s.ch.queue ∧ ch'.live_senders = s.ch.live_senders ∧
      ChanInv vs (rs.set j (stepAbs vs.length h)) m' L
        { ch := ch', core := core',
          recvs := s.recvs.set j { id := r.id, queue := (stepAbs vs.length h).concr } } := by
  have hrq : r.queue = h.concr := chan_receiver_queue inv hj hr
  have hj1 : (chanAbs vs.length :: rs)[j + 1]? = some h := by
    rw [cons_getElem?_succ]
    exact hj
  have hsize : MultiQueue.size true r.queue s.core = vs.length - h.consumed := by
    rw [hrq]
    exact size_spec inv.core_inv hj1
  obtain ⟨c1, m1, hfront, hinv1⟩ := front_spec inv.core_inv hj1
  have hdrop : (vs.drop h.consumed).head? = some (vs.get ⟨h.consumed, hc⟩) := by
    rw [List.head?_drop, List.getElem?_eq_getElem hc]
    simp
  have hj2 : ((chanAbs vs.length :: rs).set (j + 1) (frontAbs vs.length h))[j + 1]?
      = some (frontAbs vs.length h) :=
    getElem?_set_self' (lt_length_of_getElem? hj1) _
  obtain ⟨c2, m2, hpop, hinv2⟩ := pop_spec hinv1 hj2
  rw [List.set_set] at hinv2
  have hstep : popAbs vs.length (frontAbs vs.length h) = stepAbs vs.length h := rfl
  rw [hstep] at hpop hinv2
  refine ⟨(s.ch.remove_waker r.id .Receiver).remove_waker r.id .Receiver |>.wake .Sender,
    c2, m2, ?_, rfl, rfl, ?_⟩
  · rw [Receiver.recv_poll, if_pos rfl, if_pos (by rw [hsize]; omega), hrq]
    simp only [hfront, hdrop, hpop]
    rw [List.getElem?_eq_getElem hc]
    rfl
  · have hqueue : ((s.ch.remove_waker r.id .Receiver).remove_waker r.id
        .Receiver |>.wake .Sender).queue = s.ch.queue := rfl
    have hlive : ((s.ch.remove_waker r.id .Receiver).remove_waker r.id
        .Receiver |>.wake .Sender).live_senders = s.ch.live_senders := rfl
    refine ⟨?_, ?_, ?_, ?_⟩
    · have : (chanAbs vs.length :: rs).set (j + 1) (stepAbs vs.length h)
          = chanAbs vs.length :: rs.set j (stepAbs vs.length h) := rfl
      rw [← this]
      exact hinv2
    · rw [hqueue]
      exact inv.chanq_eq
    · show (s.recvs.set j _).map (fun x => x.queue) = _
      rw [List.map_set, inv.recvs_eq, List.map_set]
    · rw [hlive]
      exact inv.live_eq

/-- One `recv` poll by a drained receiver on a closed channel: resolves to
`none` (end of stream) and changes nothing. -/
theorem recv_poll_closed {vs : List T} {rs : List HAbs} {m L : Nat} {s : CSys T}
    (inv : ChanInv vs rs m L s) {j : Nat} {h : HAbs} (hj : rs[j]? = some h)
    {r : Receiver T} (hr : s.recvs[j]? = some r) (hc : h.consumed = vs.length)
    (hL : L = 0) :
    Receiver.recv_poll true r s.ch s.core = (.Ready none, r, s.ch, s.core) := by
  have hrq : r.queue = h.concr := chan_receiver_queue inv hj hr
  have hj1 : (chanAbs vs.length :: rs)[j + 1]? = some h := by
    rw [cons_getElem?_succ]
    exact hj
  have hsize : MultiQueue.size true r.queue s.core = 0 := by
    rw [hrq, size_spec inv.core_inv hj1, hc]
    omega
  rw [Receiver.recv_poll, if_pos rfl, if_neg (by rw [hsize]; omega),
    if_pos (by rw [inv.live_eq, hL])]

/-- One `recv` poll by a drained receiver while senders are live: the task
suspends (registering a waker) and the queue state is untouched. -/
theorem recv_poll_pending {vs : List T} {rs : List HAbs} {m L : Nat} {s : CSys T}
    (inv : ChanInv vs rs m L s) {j : Nat} {h : HAbs} (hj : rs[j]? = some h)
    {r : Receiver T} (hr : s.recvs[j]? = some r) (hc : h.consumed = vs.length)
    (hL : L ≠ 0) :
    Receiver.recv_poll true r s.ch s.core =
      (.Pending, r, (s.ch.set_waker r.id .Receiver).wake .Sender, s.core) := by
  have hrq : r.queue = h.concr := chan_receiver_queue inv hj hr
  have hj1 : (chanAbs vs.length :: rs)[j + 1]? = some h := by
    rw [cons_getElem?_succ]
    exact hj
  have hsize : MultiQueue.size true r.queue s.core = 0 := by
    rw [hrq, size_spec inv.core_inv hj1, hc]
    omega
  rw [Receiver.recv_poll, if_pos rfl, if_neg (by rw [hsize]; omega),
    if_neg (by rw [inv.live_eq]; exact hL)]

theorem startC_inv (sid rid : Nat) :
    ChanInv ([] : List T) [.U] 0 1 (startC sid rid).2 := by
  refine ⟨⟨?_, rfl, rfl, rfl, by simp, ?_, by simp, ?_, ?_⟩, rfl, rfl, rfl⟩
  · rw [chainSeg_nil _ _ _ (by simp)]
    rfl
  · intro x hx
    have hx2 : x = chanAbs ([] : List T).length ∨ x = .U := by simpa using hx
    rcases hx2 with rfl | rfl <;> trivial
  · intro i hi
    omega
  · intro i _ hi
    simp at hi

/-- `Sender::send` through the channel (unbounded path): the value is
appended and the channel's own read side is drained again. -/
theorem send_event_spec {vs : List T} {rs : List HAbs} {m L : Nat} {s : CSys T}
    (inv : ChanInv vs rs m L s) (sdr : Sender T) (v : T) :
    ∃ m', ChanInv (vs ++ [v]) rs m' L (applyEvent sdr s (.send v)) := by
  have hj0 : (chanAbs vs.length :: rs)[0]? = some (chanAbs vs.length) :=
    List.getElem?_cons_zero
  obtain ⟨c1, hpush, hinv1⟩ := push_spec inv.core_inv hj0 v
  have hset1 : (chanAbs vs.length :: rs).set 0 (pushAbs (chanAbs vs.length)) =
      pushAbs (chanAbs vs.length) :: rs := rfl
  rw [hset1] at hinv1
  have hj0' : (pushAbs (chanAbs vs.length) :: rs)[0]? = some (pushAbs (chanAbs vs.length)) :=
    List.getElem?_cons_zero
  obtain ⟨c2, m2, hpop, hinv2⟩ := popAll_spec hinv1 hj0'
  have hlen1 : (vs ++ [v]).length = vs.length + 1 := by simp
  have hdrain : drainAbs (vs ++ [v]).length (pushAbs (chanAbs vs.length)) =
      chanAbs (vs ++ [v]).length := by
    rw [hlen1]
    simp [drainAbs, chanAbs]
  rw [hdrain] at hpop hinv2
  have hset2 : (pushAbs (chanAbs vs.length) :: rs).set 0 (chanAbs (vs ++ [v]).length) =
      chanAbs (vs ++ [v]).length :: rs := rfl
  rw [hset2] at hinv2
  have hsend : Sender.send true true sdr v s.ch s.core =
      (.ok (), { senders := s.ch.senders.filter (fun x => x != sdr.id)
                 receivers := s.ch.receivers
                 queue := (chanAbs (vs ++ [v]).length).concr
                 live_senders := s.ch.live_senders }, c2) := by
    simp [Sender.send, Channel.send, Channel.wake, inv.chanq_eq, hpush, hpop]
  have happly : applyEvent sdr s (.send v) =
      { ch := { senders := s.ch.senders.filter (fun x => x != sdr.id)
                receivers := s.ch.receivers
                queue := (chanAbs (vs ++ [v]).length).concr
                live_senders := s.ch.live_senders }
        core := c2
        recvs := s.recvs } := by
    simp only [applyEvent, hsend]
  refine ⟨m2, ?_, ?_, ?_, ?_⟩ <;> rw [happly]
  · exact hinv2
  · exact inv.recvs_eq
  · exact inv.live_eq

/-- `Sender::subscribe`: the new receiver forks the backlog at the channel
handle's current (fully drained) position. -/
theorem sub_event_spec {vs : List T} {rs : List HAbs} {m L : Nat} {s : CSys T}
    (inv : ChanInv vs rs m L s) (sdr : Sender T) (id : Nat) :
    ChanInv vs (rs ++ [chanAbs vs.length]) m L (applyEvent sdr s (.sub id)) := by
  have hj0 : (chanAbs vs.length :: rs)[0]? = some (chanAbs vs.length) :=
    List.getElem?_cons_zero
  have hcase : chanAbs vs.length ≠ .U ∨ vs = [] := by
    by_cases hlen : vs.length = 0
    · exact Or.inr (List.length_eq_zero.mp hlen)
    · left
      simp [chanAbs, hlen]
  obtain ⟨c', hfork, hinv', _, _⟩ := fork_spec inv.core_inv hj0 hcase
  have happ : (chanAbs vs.length :: rs) ++ [chanAbs vs.length] =
      chanAbs vs.length :: (rs ++ [chanAbs vs.length]) := rfl
  rw [happ] at hinv'
  have happly : applyEvent sdr s (.sub id) =
      { ch := s.ch
        core := c'
        recvs := s.recvs ++ [{ id := id, queue := (chanAbs vs.length).concr }] } := by
    simp only [applyEvent, Sender.subscribe, Receiver.mk?, inv.chanq_eq, hfork]
  refine ⟨?_, ?_, ?_, ?_⟩ <;> rw [happly]
  · exact hinv'
  · exact inv.chanq_eq
  · show (s.recvs ++ _).map (fun x => x.queue) = _
    rw [List.map_append, inv.recvs_eq, List.map_append]
    rfl
  · exact inv.live_eq

/-- Building a channel history: the sent values accumulate in order and
each subscription's receiver starts at the send count of its creation. -/
theorem build_inv : ∀ (evs : List (ChEvent T)) {vs : List T} {rs : List HAbs}
    {m L : Nat} {s : CSys T} (sdr : Sender T), ChanInv vs rs m L s →
    ∃ m', ChanInv (vs ++ sentOf evs) (rs ++ rsAbs vs.length evs) m' L (buildC sdr s evs) := by
  intro evs
  induction evs with
  | nil =>
    intro vs rs m L s sdr inv
    refine ⟨m, ?_⟩
    simpa [buildC, sentOf, rsAbs] using inv
  | cons e es ih =>
    intro vs rs m L s sdr inv
    cases e with
    | send v =>
      obtain ⟨m1, hinv1⟩ := send_event_spec inv sdr v
      obtain ⟨m', hinv'⟩ := ih sdr hinv1
      refine ⟨m', ?_⟩
      have h1 : (vs ++ [v]) ++ sentOf es = vs ++ sentOf (ChEvent.send v :: es) := by
        rw [List.append_assoc]
        rfl
      have h2 : (vs ++ [v]).length = vs.length + 1 := by simp
      rw [h1, h2] at hinv'
      exact hinv'
    | sub id =>
      have hinv1 := sub_event_spec inv sdr id
      obtain ⟨m', hinv'⟩ := ih sdr hinv1
      refine ⟨m', ?_⟩
      have h1 : (rs ++ [chanAbs vs.length]) ++ rsAbs vs.length es =
          rs ++ rsAbs vs.length (ChEvent.sub id :: es) := by
        rw [List.append_assoc]
        rfl
      rw [h1] at hinv'
      exact hinv'

/-- One `recv` poll on a closed channel (`live_senders = 0`) always
resolves `Ready`, returning the receiver's next pending value (or `none`
past the end), and preserves the invariant with the handle advanced. -/
theorem chan_step_spec {vs : List T} {rs : List HAbs} {m : Nat} {s : CSys T}
    (inv : ChanInv vs rs m 0 s) {j : Nat} {h : HAbs} (hj : rs[j]? = some h)
    {r : Receiver T} (hr : s.recvs[j]? = some r) :
    ∃ r1 ch1 c1 m1, Receiver.recv_poll true r s.ch s.core =
      (.Ready (vs[h.consumed]?), r1, ch1, c1) ∧
      ChanInv vs (rs.set j (stepAbs vs.length h)) m1 0
        { ch := ch1, core := c1, recvs := s.recvs.set j r1 } := by
  have hj1 : (chanAbs vs.length :: rs)[j + 1]? = some h := by
    rw [cons_getElem?_succ]
    exact hj
  have hvalid : h.valid vs.length := inv.core_inv.valid h (List.getElem?_mem hj1)
  have hle := consumed_le_of_valid h vs.length hvalid
  by_cases hc : h.consumed < vs.length
  · obtain ⟨ch', core', m', heq, _, _, hinv'⟩ := recv_poll_value inv hj hr hc
    exact ⟨_, ch', core', m', heq, hinv'⟩
  · have hcM : h.consumed = vs.length := by omega
    have heq := recv_poll_closed inv hj hr hcM rfl
    have hstep : stepAbs vs.length h = h := by
      rw [stepAbs, show frontAbs vs.length h = h from by rw [frontAbs, if_neg hc],
        popAbs, if_neg hc]
    refine ⟨r, s.ch, s.core, m, ?_, ?_⟩
    · rw [heq, hcM, List.getElem?_eq_none le_rfl]
    · rw [hstep, set_of_getElem? rs j h hj, set_of_getElem? s.recvs j r hr]
      exact inv

/-- Draining a closed channel: every poll resolves immediately, and each
receiver observes exactly the values from its own position onward (then
`none`), independent of the interleaving of receivers. -/
theorem run_recvs_obs : ∀ (tr : List Nat) {vs : List T} {rs : List HAbs} {m : Nat}
    {s : CSys T}, ChanInv vs rs m 0 s → (∀ x ∈ tr, x < rs.length) →
    ∀ (base : Nat → Nat),
    (∀ i h, rs[i]? = some h → h.consumed = min (base i) vs.length) →
    (∀ i, obsOf i (runRecvs s tr).2 =
      (List.range' (base i) (tr.count i)).map (fun t => some vs[t]?)) ∧
    ∃ rs' m', ChanInv vs rs' m' 0 (runRecvs s tr).1 ∧ rs'.length = rs.length ∧
      (∀ i h', rs'[i]? = some h' →
        h'.consumed = min (base i + tr.count i) vs.length) := by
  intro tr
  induction tr with
  | nil =>
    intro vs rs m s inv _ base hbase
    refine ⟨?_, rs, m, inv, rfl, ?_⟩
    · intro i
      simp [runRecvs, obsOf]
    · intro i h' hi
      have := hbase i h' hi
      simpa using this
  | cons j tr ih =>
    intro vs rs m s inv htr base hbase
    have hjl : j < rs.length := htr j (by simp)
    obtain ⟨h, hj⟩ : ∃ h, rs[j]? = some h := by
      rw [List.getElem?_eq_getElem hjl]
      exact ⟨_, rfl⟩
    have hrl : s.recvs.length = rs.length := by
      have := congrArg List.length inv.recvs_eq
      simpa using this
    obtain ⟨r, hr⟩ : ∃ r, s.recvs[j]? = some r := by
      rw [List.getElem?_eq_getElem (by omega : j < s.recvs.length)]
      exact ⟨_, rfl⟩
    obtain ⟨r1, ch1, c1, m1, heq, hinv1⟩ := chan_step_spec inv hj hr
    have hvalid : h.valid vs.length :=
      inv.core_inv.valid h (List.getElem?_mem (by rw [cons_getElem?_succ]; exact hj))
    have hbase1 : ∀ i h', (rs.set j (stepAbs vs.length h))[i]? = some h' →
        h'.consumed = min ((fun i => if i = j then base i + 1 else base i) i) vs.length := by
      intro i h' hi
      by_cases hij : i = j
      · subst hij
        rw [getElem?_set_self' hjl _] at hi
        injection hi with hi
        subst hi
        rw [consumed_stepAbs vs.length h hvalid, hbase i h hj]
        simp only [eq_self_iff_true, if_true]
        omega
      · rw [List.getElem?_set_ne (Ne.symm hij)] at hi
        simp only [if_neg hij]
        exact hbase i h' hi
    have htr1 : ∀ x ∈ tr, x < (rs.set j (stepAbs vs.length h)).length := by
      intro x hx
      rw [List.length_set]
      exact htr x (by simp [hx])
    obtain ⟨hobs, rs', m', hinv', hlen', hcons'⟩ := ih hinv1 htr1 _ hbase1
    have hrun : runRecvs s (j :: tr) =
        ((runRecvs { ch := ch1, core := c1, recvs := s.recvs.set j r1 } tr).1,
          (j, some vs[h.consumed]?) ::
            (runRecvs { ch := ch1, core := c1, recvs := s.recvs.set j r1 } tr).2) := by
      rw [runRecvs, hr]
      simp only [heq]
    refine ⟨?_, rs', m', by rw [hrun]; exact hinv', by rw [hlen', List.length_set], ?_⟩
    · intro i
      rw [hrun]
      by_cases hij : i = j
      · subst hij
        rw [obsOf_cons_self, hobs i]
        simp only [eq_self_iff_true, if_true]
        rw [List.count_cons_self, List.range'_succ, List.map_cons]
        congr 2
        rw [hbase i h hj]
        exact getElem?_min vs (base i)
      · rw [obsOf_cons_ne i j _ _ hij, hobs i]
        simp only [if_neg hij]
        rw [List.count_cons_of_ne hij]
    · intro i h' hi
      have := hcons' i h' hi
      by_cases hij : i = j
      · subst hij
        simp only [eq_self_iff_true, if_true] at this
        rw [List.count_cons_self]
        omega
      · simp only [if_neg hij] at this
        rw [List.count_cons_of_ne hij]
        exact this

/-- Releasing the (only) sender closes the channel: the queue state is
untouched and the live count drops by one. -/
theorem closeC_inv {vs : List T} {rs : List HAbs} {m L : Nat} {s : CSys T}
    (inv : ChanInv vs rs m L s) : ChanInv vs rs m (L - 1) (closeC s) :=
  ⟨inv.core_inv, inv.chanq_eq, inv.recvs_eq, by
    show s.ch.live_senders - 1 = L - 1
    rw [inv.live_eq]⟩

theorem sentOf_sends (l : List T) : ∀ es, sentOf (l.map ChEvent.send ++ es) = l ++ sentOf es := by
  induction l with
  | nil => intro es; rfl
  | cons v rest ih =>
    intro es
    simp only [List.map_cons, List.cons_append, sentOf]
    exact congrArg (fun x => v :: x) (ih es)

theorem sentOf_map (l : List T) : sentOf (l.map ChEvent.send) = l := by
  have := sentOf_sends l []
  rw [List.append_nil] at this
  rw [this]
  simp [sentOf]

theorem rsAbs_sends (l : List T) : ∀ k es, rsAbs k (l.map ChEvent.send ++ es) =
    rsAbs (k + l.length) es := by
  induction l with
  | nil => intro k es; simp [rsAbs]
  | cons v rest ih =>
    intro k es
    simp only [List.map_cons, List.cons_append, rsAbs, List.length_cons]
    have h2 := ih (k + 1) es
    rw [show k + 1 + rest.length = k + (rest.length + 1) from by omega] at h2
    exact h2

theorem rsAbs_map (l : List T) (k : Nat) : rsAbs k (l.map ChEvent.send) = [] := by
  have := rsAbs_sends l k []
  rw [List.append_nil] at this
  rw [this]
  rfl

theorem segOf_map_updInc (g : Nat → Nat) (a : Nat) (l : List T) : ∀ i,
    (segOf (updInc g a) i l).map (fun p => (p.1, p.2.reference_count)) =
      (segOf g i l).map (fun p => (p.1, p.2.reference_count + if a ≤ p.1 then 1 else 0)) := by
  induction l with
  | nil => intro i; rfl
  | cons v rest ih =>
    intro i
    simp only [segOf, List.map_cons, ih (i + 1)]
    congr 1
    show (i, updInc g a i) = (i, g i + if a ≤ i then 1 else 0)
    rw [updInc]
    by_cases ha : a ≤ i
    · rw [if_pos ha, if_pos ha]
    · rw [if_neg ha, if_neg ha, Nat.add_zero]

theorem foldl_add_task (ts : List Task) : ∀ (j : ThreadJob),
    (ts.foldl ThreadJob.add_task j).job_list = j.job_list ++ ts := by
  induction ts with
  | nil => intro j; simp
  | cons t rest ih =>
    intro j
    rw [List.foldl_cons, ih, ThreadJob.add_task]
    simp

theorem jobOf_job_list (ts : List Task) : (jobOf ts).job_list = ts := by
  rw [jobOf, foldl_add_task]
  rfl

theorem runTasks_ok : ∀ (ts : List Task), (∀ x ∈ ts, x.outcome = .ok ()) →
    runTasks ts = (ts.map Task.id, .ok ()) := by
  intro ts
  induction ts with
  | nil => intro _; rfl
  | cons t rest ih =>
    intro hok
    have ht : t.outcome = .ok () := hok t (by simp)
    rw [runTasks]
    simp only [ht, ih (fun x hx => hok x (by simp [hx])), List.map_cons]

theorem runTasks_err : ∀ (pre : List Task), (∀ x ∈ pre, x.outcome = .ok ()) →
    ∀ (t : Task) (post : List Task), t.outcome = .error () →
    runTasks (pre ++ t :: post) = (pre.map Task.id ++ [t.id], .error ()) := by
  intro pre
  induction pre with
  | nil =>
    intro _ t post ht
    rw [List.nil_append, runTasks]
    simp only [ht, List.map_nil, List.nil_append]
  | cons p rest ih =>
    intro hok t post ht
    have hp : p.outcome = .ok () := hok p (by simp)
    rw [List.cons_append, runTasks]
    simp only [hp, ih (fun x hx => hok x (by simp [hx])) t post ht, List.map_cons,
      List.cons_append]

theorem demoCore_inv : CoreInv [7, 8] [HAbs.B 1, HAbs.B 0] 0 demoCore := by
  refine ⟨by decide, rfl, rfl, rfl, by simp, ?_, by omega, ?_, ?_⟩
  · intro x hx
    have hx2 : x = HAbs.B 1 ∨ x = HAbs.B 0 := by simpa using hx
    rcases hx2 with rfl | rfl
    · exact (by omega : 1 < 2)
    · exact (by omega : 0 < 2)
  · intro i hi
    exact absurd hi (Nat.not_lt_zero i)
  · intro i _ hi
    have h01 : i = 0 ∨ i = 1 := by simp only [List.length_cons, List.length_nil] at hi; omega
    rcases h01 with rfl | rfl <;> decide

/-- Claim C6.  A worker runs a job's tasks strictly in `add_task` order:
for a job whose tasks are an all-ok prefix `pre` followed by a failing
task `t`, exactly `pre`'s tasks and then `t` are awaited, in order, no
task after the failure runs, no task runs twice; a job of only succeeding
tasks runs them all in order. -/
theorem C6_tasks_in_add_order_error_aborts (pre post : List Task) (t : Task)
    (hpre : ∀ x ∈ pre, x.outcome = .ok ()) (ht : t.outcome = .error ()) :
    runTasks (jobOf (pre ++ t :: post)).job_list = (pre.map Task.id ++ [t.id], .error ()) ∧
    runTasks (jobOf pre).job_list = (pre.map Task.id, .ok ()) := by
  rw [jobOf_job_list, jobOf_job_list]
  exact ⟨runTasks_err pre hpre t post ht, runTasks_ok pre hpre⟩

/-- Claim C6, witness: a concrete job of tasks 1, 2 succeeding, 3 failing
and 4 queued after the failure. -/
theorem C6_tasks_in_add_order_error_aborts_witness :
    (∀ x ∈ [({ id := 1, outcome := .ok () } : Task), { id := 2, outcome := .ok () }],
      x.outcome = .ok ()) ∧
    (({ id := 3, outcome := .error () } : Task).outcome = .error ()) ∧
    (runTasks (jobOf ([({ id := 1, outcome := .ok () } : Task), { id := 2, outcome := .ok () }]
        ++ { id := 3, outcome := .error () } :: [{ id := 4, outcome := .ok () }])).job_list =
      ([1, 2, 3], .error ()) ∧
     runTasks (jobOf [({ id := 1, outcome := .ok () } : Task),
        { id := 2, outcome := .ok () }]).job_list = ([1, 2], .ok ())) :=
  ⟨by decide, by decide,
    C6_tasks_in_add_order_error_aborts
      [{ id := 1, outcome := .ok () }, { id := 2, outcome := .ok () }]
      [{ id := 4, outcome := .ok () }] { id := 3, outcome := .error () }
      (by decide) (by decide)⟩

/-- Claim C7.  With the lock unavailable, `front` reads `none`, `size`
reads 0, `empty` reads `true`, all without touching any state;
`push_back` fails carrying the un-enqueued value; `fork` fails explicitly
with no state change. -/
theorem C7_lock_failure_behaviors (T : Type) (q : MultiQueue T) (c : Core T) (v : T) :
    MultiQueue.front false q c = (none, q, c) ∧
    MultiQueue.size false q c = 0 ∧
    MultiQueue.empty false q c = true ∧
    MultiQueue.push_back false q c v = (.error (.Push v), q, c) ∧
    MultiQueue.fork false q c = (.error .Fork, c) :=
  ⟨rfl, rfl, rfl, rfl, rfl⟩

/-- Claim C10.  Once a task errors, the worker's loop dies: with an inbox
of all-ok jobs `pre`, then a job with a failing task, then `post`, the
worker executes `pre`'s tasks and the failing job's prefix, sends no idle
notification, terminates (the `true` flag), and never executes a task of
`post`. -/
theorem C10_worker_dies_on_task_error : ∀ (pre : List ThreadJob)
    (p1 p2 : List Task) (t : Task) (post : List ThreadJob),
    (∀ j ∈ pre, ∀ x ∈ j.job_list, x.outcome = .ok ()) →
    (∀ x ∈ p1, x.outcome = .ok ()) → t.outcome = .error () →
    workerLoop (pre ++ ({ job_list := p1 ++ t :: p2 } : ThreadJob) :: post) =
      ((pre.map (fun j => j.job_list.map Task.id)).flatten ++ (p1.map Task.id ++ [t.id]),
        0, true) := by
  intro pre
  induction pre with
  | nil =>
    intro p1 p2 t post _ hp1 ht
    rw [List.nil_append, workerLoop.eq_def]
    simp only [runTasks_err p1 hp1 t p2 ht, List.map_nil, List.flatten_nil, List.nil_append]
  | cons j rest ih =>
    intro p1 p2 t post hpre hp1 ht
    have hj : runTasks j.job_list = (j.job_list.map Task.id, .ok ()) :=
      runTasks_ok j.job_list (hpre j (by simp))
    have hrest := ih p1 p2 t post (fun x hx => hpre x (by simp [hx])) hp1 ht
    rw [List.cons_append, workerLoop.eq_def]
    simp only [hj]
    cases hcase : rest ++ ({ job_list := p1 ++ t :: p2 } : ThreadJob) :: post with
    | nil => exact absurd hcase (by simp)
    | cons a l =>
      rw [← hcase, hrest, hcase]
      simp [List.flatten_cons, List.append_assoc]

/-- Claim C10, witness: one clean job (task 1), then a job failing at its
second task (tasks 2, 3, 4), then a job (task 5) that is never run. -/
theorem C10_worker_dies_on_task_error_witness :
    (∀ j ∈ [jobOf [({ id := 1, outcome := .ok () } : Task)]],
      ∀ x ∈ j.job_list, x.outcome = .ok ()) ∧
    (∀ x ∈ [({ id := 2, outcome := .ok () } : Task)], x.outcome = .ok ()) ∧
    (({ id := 3, outcome := .error () } : Task).outcome = .error ()) ∧
    workerLoop ([jobOf [({ id := 1, outcome := .ok () } : Task)]] ++
        ({ job_list := [({ id := 2, outcome := .ok () } : Task)] ++
            ({ id := 3, outcome := .error () } : Task) ::
            [({ id := 4, outcome := .ok () } : Task)] } : ThreadJob) ::
        [jobOf [({ id := 5, outcome := .ok () } : Task)]]) =
      ([1, 2, 3], 0, true) :=
  ⟨by decide, by decide, by decide,
    C10_worker_dies_on_task_error [jobOf [{ id := 1, outcome := .ok () }]]
      [{ id := 2, outcome := .ok () }] [{ id := 4, outcome := .ok () }]
      { id := 3, outcome := .error () } [jobOf [{ id := 5, outcome := .ok () }]]
      (by decide) (by decide) (by decide)⟩

/-- Claim C8, counterexample: in the two-handle scenario, handle 0 has
popped block 0, so its `fork()` starts the increment walk at its own
`head` — block 0 keeps reference count 1 instead of being incremented to
2, although the fork succeeds and block 0 is still in the chain. -/
theorem C8_counterexample_fork_skips_released_node :
    forkDemoPre.core.chain.map (fun p => (p.1, p.2.reference_count)) = [(0, 1), (1, 2)] ∧
    (MultiQueue.fork true forkDemoQ forkDemoPre.core).1 = .ok forkDemoQ ∧
    (MultiQueue.fork true forkDemoQ forkDemoPre.core).2.chain.map
        (fun p => (p.1, p.2.reference_count)) = [(0, 1), (1, 3)] :=
  ⟨rfl, rfl, rfl⟩

/-- Claim C8 (amended).  A successful `fork()` increments the core's
live-handle count by one, returns a new handle at the parent's current
position (null head included), and increments the reference count of
exactly the blocks from the parent handle's own head pointer onward:
blocks the parent has already released keep their count, and a parent
that never attached to the chain (null head) increments no block at all,
even when the chain is non-empty. -/
theorem C8_amended_fork_increments_from_parent (T : Type) {vs : List T} {hs : List HAbs}
    {m : Nat} {c : Core T} (inv : CoreInv vs hs m c) {j : Nat} {h : HAbs}
    (hj : hs[j]? = some h) :
    ∃ c', MultiQueue.fork true (h.concr) c = (.ok (h.concr : MultiQueue T), c') ∧
      c'.reference_count = c.reference_count + 1 ∧
      c'.chain.map (fun p => (p.1, p.2.reference_count)) =
        c.chain.map (fun p => (p.1, p.2.reference_count +
          match (h.concr : MultiQueue T).head with
          | none => 0
          | some a => if a ≤ p.1 then 1 else 0)) := by
  cases h with
  | U => exact ⟨_, rfl, rfl, rfl⟩
  | B k =>
    obtain ⟨c', hfork, _, hrc, hchain⟩ := fork_spec inv hj (Or.inl (by simp))
    refine ⟨c', hfork, hrc, ?_⟩
    rw [hchain, inv.chain_eq, chainSeg, chainSeg, segOf_map_updInc]
    rfl
  | C k =>
    obtain ⟨c', hfork, _, hrc, hchain⟩ := fork_spec inv hj (Or.inl (by simp))
    refine ⟨c', hfork, hrc, ?_⟩
    rw [hchain, inv.chain_eq, chainSeg, chainSeg, segOf_map_updInc]
    rfl

/-- Claim C8 (amended), witness: the fork at handle descriptor `B 1` of
the demonstration core increments only block 1. -/
theorem C8_amended_fork_increments_from_parent_witness :
    ([HAbs.B 1, HAbs.B 0] : List HAbs)[0]? = some (HAbs.B 1) ∧
    (∃ c', MultiQueue.fork true ((HAbs.B 1).concr : MultiQueue Nat) demoCore =
        (.ok ((HAbs.B 1).concr : MultiQueue Nat), c') ∧
      c'.reference_count = demoCore.reference_count + 1 ∧
      c'.chain.map (fun p => (p.1, p.2.reference_count)) =
        demoCore.chain.map (fun p => (p.1, p.2.reference_count +
          match ((HAbs.B 1).concr : MultiQueue Nat).head with
          | none => 0
          | some a => if a ≤ p.1 then 1 else 0))) :=
  ⟨rfl,
    C8_amended_fork_increments_from_parent Nat demoCore_inv
      (show ([HAbs.B 1, HAbs.B 0] : List HAbs)[0]? = some (HAbs.B 1) from rfl)⟩

/-- Claim C9, counterexample: after pushing 1 and popping it, the handle
parks at the end of the queue on the consumed block; `iter()` copies the
raw head and yields the already-consumed value 1, although `front()`
returns `none` and `empty()` is `true`. -/
theorem C9_counterexample_iter_yields_consumed_value :
    iterCollect iterDemoPre.core 5 (MultiQueueIterator.new iterDemoQ) = [1] ∧
    (MultiQueue.front true iterDemoQ iterDemoPre.core).1 = none ∧
    MultiQueue.empty true iterDemoQ iterDemoPre.core = true :=
  ⟨rfl, rfl, rfl⟩

/-- Claim C9 (amended).  `iter()` yields, in order, the stored values from
the handle's claim position (`decPos`) to the tail: for a handle that has
attached to the chain this is the suffix from `decPos` — which includes
the already-consumed block a handle parked at end of queue still holds —
and for a never-attached handle (`U`, null head) it is empty even when the
queue holds values.  The traversal is read-only by construction. -/
theorem C9_amended_iter_yields_from_claim_position (T : Type) {vs : List T}
    {hs : List HAbs} {m : Nat} {c : Core T} (inv : CoreInv vs hs m c) {j : Nat} {h : HAbs}
    (hj : hs[j]? = some h) (fuel : Nat) (hfuel : vs.length - h.decPos ≤ fuel) :
    iterCollect c fuel (MultiQueueIterator.new (h.concr)) =
      if h = .U then [] else vs.drop h.decPos := by
  cases h with
  | U =>
    rw [if_pos rfl]
    exact iterCollect_none c fuel
  | B k =>
    rw [if_neg (by simp)]
    exact iterCollect_chainSeg inv fuel k (inv.m_le_decPos hj) hfuel
  | C k =>
    rw [if_neg (by simp)]
    exact iterCollect_chainSeg inv fuel (k - 1) (inv.m_le_decPos hj) hfuel

/-- Claim C9 (amended), witness: iterating the `B 0` handle of the
demonstration core yields both stored values. -/
theorem C9_amended_iter_yields_from_claim_position_witness :
    ([HAbs.B 1, HAbs.B 0] : List HAbs)[1]? = some (HAbs.B 0) ∧
    (([7, 8] : List Nat).length - (HAbs.B 0).decPos ≤ 2) ∧
    iterCollect demoCore 2 (MultiQueueIterator.new ((HAbs.B 0).concr : MultiQueue Nat)) =
      (if HAbs.B 0 = HAbs.U then [] else ([7, 8] : List Nat).drop (HAbs.B 0).decPos) :=
  ⟨rfl, by decide,
    C9_amended_iter_yields_from_claim_position Nat demoCore_inv
      (show ([HAbs.B 1, HAbs.B 0] : List HAbs)[1]? = some (HAbs.B 0) from rfl) 2 (by decide)⟩

/-- Claim C4.  A bounded sender's `get_send_space` await never suspends
while `shared_size() < bound` (it resolves at once, touching nothing);
once `shared_size()` has reached the bound it suspends, registering the
sender's waker, and the poll reads but never changes the queue, so the
sender can only resume after a `recv` has removed an item — as the bound-1
scenario shows: `send` fills the queue, the next send's space poll is
`Pending`, and after the receiver's `recv` the poll is `Ready` again. -/
theorem C4_bounded_send_suspends_at_bound :
    (∀ (T : Type) (sdr : Sender T) (ch : Channel T) (core : Core T) (B : Nat),
      sdr.bound = some B →
      (MultiQueue.shared_size true core < B →
        Sender.get_send_space_poll true sdr ch core = (.Ready (.ok ()), ch)) ∧
      (B ≤ MultiQueue.shared_size true core →
        Sender.get_send_space_poll true sdr ch core =
          (.Pending, ch.set_waker sdr.id .Sender)) ∧
      (Sender.get_send_space_poll true sdr ch core).2.queue = ch.queue ∧
      (Sender.get_send_space_poll true sdr ch core).2.live_senders = ch.live_senders) ∧
    (boundedDemoSent.1 = .ok () ∧
     MultiQueue.shared_size true boundedDemoSent.2.2 = 1 ∧
     (Sender.get_send_space_poll true boundedDemoInit.1
        boundedDemoSent.2.1 boundedDemoSent.2.2).1 = .Pending ∧
     boundedDemoRecvd.1 = .Ready (some 5) ∧
     MultiQueue.shared_size true boundedDemoRecvd.2.2.2 = 0 ∧
     (Sender.get_send_space_poll true boundedDemoInit.1
        boundedDemoRecvd.2.2.1 boundedDemoRecvd.2.2.2).1 = .Ready (.ok ())) := by
  constructor
  · intro T sdr ch core B hb
    refine ⟨?_, ?_, ?_, ?_⟩
    · intro hlt
      rw [Sender.get_send_space_poll, if_pos rfl, hb]
      simp only [if_pos hlt]
    · intro hge
      rw [Sender.get_send_space_poll, if_pos rfl, hb]
      simp only [if_neg (by omega : ¬ MultiQueue.shared_size true core < B)]
    · rw [Sender.get_send_space_poll, if_pos rfl, hb]
      by_cases hlt : MultiQueue.shared_size true core < B
      · simp only [if_pos hlt]
      · simp only [if_neg hlt]
        rfl
    · rw [Sender.get_send_space_poll, if_pos rfl, hb]
      by_cases hlt : MultiQueue.shared_size true core < B
      · simp only [if_pos hlt]
      · simp only [if_neg hlt]
        rfl
  · exact ⟨rfl, rfl, rfl, rfl, rfl, rfl⟩

/-- Claim C3.  Once the live-sender count reaches zero the channel is
closed, but every existing receiver still drains its backlog: polling
`recv` on the closed channel always resolves immediately (never
`Pending`), each receiver observes its remaining backlog values in
enqueue order and then `none`; and, in any reachable channel state,
`recv` resolves `Ready none` only when that receiver's backlog fork is
empty and the live-sender count is zero. -/
theorem C3_closed_channel_drains_backlog (T : Type) (evs : List (ChEvent T)) (sid rid : Nat)
    (tr : List Nat) (htr : ∀ x ∈ tr, x < (HAbs.U :: rsAbs 0 evs).length) :
    (∀ i, obsOf i (runRecvs (closeC (buildC (startC sid rid).1 (startC sid rid).2 evs)) tr).2 =
      (expectedObs (sentOf evs)
        ((HAbs.U :: rsAbs 0 evs).getD i HAbs.U).consumed (tr.count i)).map some) ∧
    (∀ (vs : List T) (rs : List HAbs) (m L : Nat) (s : CSys T) (j : Nat) (hd : HAbs)
      (r : Receiver T), ChanInv vs rs m L s → rs[j]? = some hd → s.recvs[j]? = some r →
      (Receiver.recv_poll true r s.ch s.core).1 = .Ready none →
      hd.consumed = vs.length ∧ L = 0) := by
  constructor
  · obtain ⟨m1, hinv1⟩ := build_inv evs (startC sid rid).1 (startC_inv sid rid)
    simp only [List.nil_append, List.length_nil, List.singleton_append] at hinv1
    have hinv2 := closeC_inv hinv1
    have hbase : ∀ i hh, (HAbs.U :: rsAbs 0 evs)[i]? = some hh →
        hh.consumed = min (((HAbs.U :: rsAbs 0 evs).getD i HAbs.U).consumed)
          (sentOf evs).length := by
      intro i hh hi
      have hg : (HAbs.U :: rsAbs 0 evs).getD i HAbs.U = hh := by
        rw [List.getD_eq_getElem?_getD, hi]
        rfl
      have hmem : hh ∈ chanAbs (sentOf evs).length :: HAbs.U :: rsAbs 0 evs := by
        have h2 : (chanAbs (sentOf evs).length :: HAbs.U :: rsAbs 0 evs)[i + 1]? = some hh := by
          rw [cons_getElem?_succ]
          exact hi
        exact List.getElem?_mem h2
      have hv := hinv2.core_inv.valid hh hmem
      have hle := consumed_le_of_valid hh _ hv
      rw [hg]
      omega
    obtain ⟨hobs, _, _, _, _, _⟩ := run_recvs_obs tr hinv2 htr _ hbase
    intro i
    rw [← range'_map_getElem?, List.map_map]
    exact hobs i
  · intro vs rs m L s j hd r inv hj hr hpoll
    have hj1 : (chanAbs vs.length :: rs)[j + 1]? = some hd := by
      rw [cons_getElem?_succ]
      exact hj
    have hvalid := inv.core_inv.valid hd (List.getElem?_mem hj1)
    have hle := consumed_le_of_valid hd vs.length hvalid
    by_cases hc : hd.consumed < vs.length
    · obtain ⟨ch', core', m', heq, _, _, _⟩ := recv_poll_value inv hj hr hc
      rw [heq] at hpoll
      rw [List.getElem?_eq_getElem hc] at hpoll
      injection hpoll with h2
      exact absurd h2 (by simp)
    · have hcM : hd.consumed = vs.length := by omega
      by_cases hL : L = 0
      · exact ⟨hcM, hL⟩
      · have heq := recv_poll_pending inv hj hr hcM hL
        rw [heq] at hpoll
        exact Poll.noConfusion hpoll

/-- Claim C3, witness: one value sent, channel closed, the original
receiver polled twice (value 1, then end of stream). -/
theorem C3_closed_channel_drains_backlog_witness :
    (∀ x ∈ [0, 0], x < (HAbs.U :: rsAbs 0 [ChEvent.send (1 : Nat)]).length) ∧
    ((∀ i, obsOf i (runRecvs (closeC (buildC (startC 0 1).1 (startC 0 1).2
          [ChEvent.send (1 : Nat)])) [0, 0]).2 =
      (expectedObs (sentOf [ChEvent.send (1 : Nat)])
        ((HAbs.U :: rsAbs 0 [ChEvent.send (1 : Nat)]).getD i HAbs.U).consumed
        ([0, 0].count i)).map some) ∧
     (∀ (vs : List Nat) (rs : List HAbs) (m L : Nat) (s : CSys Nat) (j : Nat) (hd : HAbs)
      (r : Receiver Nat), ChanInv vs rs m L s → rs[j]? = some hd → s.recvs[j]? = some r →
      (Receiver.recv_poll true r s.ch s.core).1 = .Ready none →
      hd.consumed = vs.length ∧ L = 0)) :=
  ⟨by decide, C3_closed_channel_drains_backlog Nat [ChEvent.send 1] 0 1 [0, 0] (by decide)⟩

/-- Claim C5.  A receiver subscribed after the values `vs1` were sent
observes none of them: in the history `vs1` sent, `subscribe`, `vs2`
sent, the new receiver's first `recv` resolves exactly with the first
value of `vs2` — the (K+1)-th value sent overall — and over any number of
`recv` rounds (after the sender is gone) it observes exactly the suffix
`vs2` of the global send order, in order, with no duplication, then end
of stream. -/
theorem C5_subscriber_sees_only_suffix (T : Type) (vs1 vs2 : List T) (sid rid newId : Nat) :
    (∀ (v : T) (vs2' : List T), vs2 = v :: vs2' →
      ∀ r, (subSys sid rid newId vs1 vs2 : CSys T).recvs[1]? = some r →
      (Receiver.recv_poll true r (subSys sid rid newId vs1 vs2).ch
          (subSys sid rid newId vs1 vs2).core).1 = .Ready (some v)) ∧
    (∀ n, obsOf 1 (runRecvs (closeC (subSys sid rid newId vs1 vs2))
        (List.replicate n 1)).2 =
      (expectedObs (vs1 ++ vs2) vs1.length n).map some) := by
  have hsubeq : (subSys sid rid newId vs1 vs2 : CSys T) =
      buildC (startC sid rid).1 (startC sid rid).2
        (vs1.map ChEvent.send ++ ChEvent.sub newId :: vs2.map ChEvent.send) := rfl
  have hsent : sentOf (vs1.map ChEvent.send ++ ChEvent.sub newId :: vs2.map ChEvent.send) =
      vs1 ++ vs2 := by
    rw [sentOf_sends]
    congr 1
    show sentOf (vs2.map ChEvent.send) = vs2
    exact sentOf_map vs2
  have hrs : rsAbs 0 (vs1.map ChEvent.send ++ ChEvent.sub newId :: vs2.map ChEvent.send) =
      [if vs1.length = 0 then HAbs.U else HAbs.C vs1.length] := by
    rw [rsAbs_sends]
    show (if 0 + vs1.length = 0 then HAbs.U else HAbs.C (0 + vs1.length)) ::
        rsAbs (0 + vs1.length) (vs2.map ChEvent.send) = _
    rw [rsAbs_map, Nat.zero_add]
  obtain ⟨m1, hinv1⟩ := build_inv _ (startC sid rid).1 (startC_inv sid rid)
  simp only [List.nil_append, List.length_nil, List.singleton_append] at hinv1
  rw [hsent, hrs] at hinv1
  have hj1 : (HAbs.U :: [if vs1.length = 0 then HAbs.U else HAbs.C vs1.length])[1]? =
      some (if vs1.length = 0 then HAbs.U else HAbs.C vs1.length) := by
    rw [cons_getElem?_succ]
    exact List.getElem?_cons_zero
  have hcons1 : (if vs1.length = 0 then HAbs.U else HAbs.C vs1.length).consumed =
      vs1.length := by
    by_cases h0 : vs1.length = 0
    · rw [if_pos h0, h0]
      rfl
    · rw [if_neg h0]
      rfl
  constructor
  · intro v vs2' hv r hr1
    rw [hsubeq] at hr1 ⊢
    have hc : (if vs1.length = 0 then HAbs.U else HAbs.C vs1.length).consumed <
        (vs1 ++ vs2).length := by
      rw [hcons1, hv]
      simp only [List.length_append, List.length_cons]
      omega
    obtain ⟨ch', core', m', heq, _, _, _⟩ := recv_poll_value hinv1 hj1 hr1 hc
    have h1 : (vs1 ++ vs2)[(if vs1.length = 0 then HAbs.U
        else HAbs.C vs1.length).consumed]? = some v := by
      rw [hcons1, hv, List.getElem?_append_right (le_refl vs1.length), Nat.sub_self]
      exact List.getElem?_cons_zero
    rw [heq]
    show Poll.Ready ((vs1 ++ vs2)[(if vs1.length = 0 then HAbs.U
      else HAbs.C vs1.length).consumed]?) = Poll.Ready (some v)
    rw [h1]
  · intro n
    have hinv2 := closeC_inv hinv1
    have htr2 : ∀ x ∈ List.replicate n 1,
        x < (HAbs.U :: [if vs1.length = 0 then HAbs.U else HAbs.C vs1.length]).length := by
      intro x hx
      rw [List.eq_of_mem_replicate hx]
      simp
    have hbase : ∀ i hh,
        (HAbs.U :: [if vs1.length = 0 then HAbs.U else HAbs.C vs1.length])[i]? = some hh →
        hh.consumed = min ((fun i => if i = 1 then vs1.length else 0) i)
          (vs1 ++ vs2).length := by
      intro i hh hi
      cases i with
      | zero =>
        injection hi with hi
        subst hi
        simp [HAbs.consumed]
      | succ i1 =>
        cases i1 with
        | zero =>
          rw [cons_getElem?_succ] at hi
          rw [List.getElem?_cons_zero] at hi
          injection hi with hi
          subst hi
          rw [hcons1]
          have hite : ((fun i => if i = 1 then vs1.length else 0) 1) = vs1.length := by simp
          rw [hite, min_eq_left (by simp only [List.length_append]; omega)]
        | succ i2 =>
          rw [cons_getElem?_succ, cons_getElem?_succ] at hi
          simp at hi
    obtain ⟨hobs, _⟩ := run_recvs_obs (List.replicate n 1) hinv2 htr2 _ hbase
    have hone := hobs 1
    rw [List.count_replicate_self] at hone
    simp only [eq_self_iff_true, if_true] at hone
    rw [hsubeq, ← range'_map_getElem?, List.map_map]
    exact hone

/-- Claim C2, witness: two fork handles, one value pushed through handle
0, rounds interleaved 0, 1, 1. -/
theorem C2_forks_drain_same_values_witness :
    ((0 : Nat) < 1 + 1) ∧ (∀ x ∈ [0, 1, 1], x < 1 + 1) ∧
    (∀ i, obsOf i (runFrontPops (pushAll (forkN (mkSys : Sys Nat) 1) 0 [5]) [0, 1, 1]).2 =
      expectedObs [5] 0 ([0, 1, 1].count i)) :=
  ⟨by decide, by decide,
    C2_forks_drain_same_values Nat 1 [5] 0 (by decide) [0, 1, 1] (by decide)⟩

end Foundation
